import Mathlib

/-!
Verification development for the shell-environment resolution and
executable-discovery subsystem (src/src/main/utils/process.ts and the
shell-env module).  The TypeScript functions are shallowly embedded as
executable Lean definitions; subprocess results, the filesystem and the
Windows registry are abstracted as oracle parameters carried by explicit
"world" records, and the event-loop behaviour of the async cache is
modelled as explicit state passing.
-/

/-! ## JavaScript string primitives (modelled over `List Char`) -/

/-- Whitespace characters recognised by JavaScript trim (ASCII subset). -/
def isJsWs (c : Char) : Bool :=
  c = ' ' || c = '\t' || c = '\n' || c = '\r' || c = '\x0b' || c = '\x0c'

/-- Model of JavaScript String.prototype.trim on character lists. -/
def trimChars (cs : List Char) : List Char :=
  ((cs.dropWhile isJsWs).reverse.dropWhile isJsWs).reverse

/-- Model of JavaScript String.prototype.trim. -/
def jsTrimStr (s : String) : String :=
  String.mk (trimChars s.data)

/-- ASCII lower-casing of a string, modelling toLowerCase on the ASCII
paths this code handles. -/
def lowerStr (s : String) : String :=
  String.mk (s.data.map Char.toLower)

/-- Model of JavaScript String.prototype.split with a single-character
separator: every separator produces a boundary, empty pieces included. -/
def splitOnChar (sep : Char) : List Char → List (List Char)
  | [] => [[]]
  | c :: rest =>
    if c = sep then [] :: splitOnChar sep rest
    else
      match splitOnChar sep rest with
      | [] => [[c]]
      | h :: t => (c :: h) :: t

/-- String wrapper for `splitOnChar`. -/
def splitOnCharStr (sep : Char) (s : String) : List String :=
  (splitOnChar sep s.data).map String.mk

/-- Model of splitting on the regular expression pattern of an optional
carriage return followed by a newline, as used for subprocess output. -/
def splitCRLF : List Char → List (List Char)
  | [] => [[]]
  | '\r' :: '\n' :: rest => [] :: splitCRLF rest
  | '\n' :: rest => [] :: splitCRLF rest
  | c :: rest =>
    match splitCRLF rest with
    | [] => [[c]]
    | h :: t => (c :: h) :: t

/-- String wrapper for `splitCRLF`. -/
def splitCRLFStr (s : String) : List String :=
  (splitCRLF s.data).map String.mk

/-- Model of Array.prototype.join with a single-character separator,
on character lists. -/
def joinChars (sep : Char) : List (List Char) → List Char
  | [] => []
  | [x] => x
  | x :: xs => x ++ sep :: joinChars sep xs

/-- String wrapper for `joinChars`. -/
def joinSegs (sep : Char) (xs : List String) : String :=
  String.mk (joinChars sep (xs.map String.data))

/-- Model of JavaScript truthiness for an optional environment value:
undefined and the empty string are falsy. -/
def jsTruthy (o : Option String) : Bool :=
  match o with
  | some s => s ≠ ""
  | none => false

/-- Model of the JavaScript expression a-or-else-b on strings, where a
missing or empty value falls through to the alternative. -/
def jsOrS (o : Option String) (alt : String) : String :=
  match o with
  | some s => if s = "" then alt else s
  | none => alt

/-- Suffix test on strings (String.prototype.endsWith). -/
def strEndsWith (s suf : String) : Bool :=
  suf.data.isSuffixOf s.data

/-- Literal-prefix test on strings (String.prototype.startsWith). -/
def strStartsWith (s pre : String) : Bool :=
  pre.data.isPrefixOf s.data

/-! ## Node.js path module (the parts this subsystem uses)

Modelled from Node.js `path.posix` / `path.win32`: `normalize`, `join`,
`isAbsolute`, `dirname` and a `resolve` restricted to the input shapes
the embedded code produces.  Only ASCII case folding is modelled.
-/

/-- Core component normalisation shared by posix and win32 normalize:
drops empty and dot components and resolves dot-dot components, keeping
them only above the root of a relative path. -/
def normComps (allowAboveRoot : Bool) (comps : List String) : List String :=
  (comps.foldl
    (fun racc c =>
      if c = "" || c = "." then racc
      else if c = ".." then
        match racc with
        | [] => if allowAboveRoot then [".."] else []
        | last :: rest =>
          if last = ".." then (if allowAboveRoot then ".." :: racc else racc)
          else rest
      else c :: racc)
    []).reverse

/-- Node `path.posix.normalize`. -/
def posixNormalize (s : String) : String :=
  if s = "" then "." else
  let cs := s.data
  let isAbs := cs.headD ' ' = '/'
  let trail := cs.getLastD ' ' = '/'
  let comps := (splitOnChar '/' cs).map String.mk
  let body := joinSegs '/' (normComps (!isAbs) comps)
  if body = "" then (if isAbs then "/" else if trail then "./" else ".")
  else
    let body2 := if trail then body ++ "/" else body
    if isAbs then "/" ++ body2 else body2

/-- Node `path.posix.join`. -/
def posixJoin (parts : List String) : String :=
  let nonEmpty := parts.filter (fun p => p ≠ "")
  if nonEmpty = [] then "." else posixNormalize (joinSegs '/' nonEmpty)

/-- Node `path.posix.isAbsolute`. -/
def posixIsAbsolute (s : String) : Bool :=
  match s.data with
  | '/' :: _ => true
  | _ => false

/-- Windows path-separator characters. -/
def win32IsSep (c : Char) : Bool := c = '\\' || c = '/'

/-- ASCII drive letter test (Node isWindowsDeviceRoot). -/
def isDriveLetter (c : Char) : Bool :=
  ('a' ≤ c && c ≤ 'z') || ('A' ≤ c && c ≤ 'Z')

/-- Result of parsing the root of a Windows path: either the whole
normalized result (the degenerate UNC-root early return in Node), or a
device prefix, absoluteness flag and remaining tail characters. -/
inductive Win32Parse where
  | done (result : String)
  | root (device : Option String) (isAbs : Bool) (tailChars : List Char)

/-- Root parsing of Node `path.win32.normalize` for strings of length at
least two (UNC prefixes, drive letters, rooted paths). -/
def win32ParseRoot (cs : List Char) : Win32Parse :=
  match cs with
  | c0 :: c1 :: rest =>
    if win32IsSep c0 then
      if win32IsSep c1 then
        let firstPart := rest.takeWhile (fun c => !win32IsSep c)
        let r1 := rest.dropWhile (fun c => !win32IsSep c)
        if firstPart = [] || r1 = [] then .root none true cs
        else
          let r2 := r1.dropWhile win32IsSep
          if r2 = [] then .root none true cs
          else
            let second := r2.takeWhile (fun c => !win32IsSep c)
            let r3 := r2.dropWhile (fun c => !win32IsSep c)
            if r3 = [] then
              .done ("\\\\" ++ String.mk firstPart ++ "\\" ++ String.mk second ++ "\\")
            else
              .root (some ("\\\\" ++ String.mk firstPart ++ "\\" ++ String.mk second)) true r3
      else .root none true (c1 :: rest)
    else if isDriveLetter c0 && c1 = ':' then
      match rest with
      | c2 :: rest2 =>
        if win32IsSep c2 then .root (some (String.mk [c0, ':'])) true rest2
        else .root (some (String.mk [c0, ':'])) false rest
      | [] => .root (some (String.mk [c0, ':'])) false []
    else .root none false cs
  | _ => .root none false cs

/-- Node `path.win32.normalize`. -/
def win32Normalize (s : String) : String :=
  match s.data with
  | [] => "."
  | [c] => if win32IsSep c then "\\" else s
  | cs =>
    match win32ParseRoot cs with
    | .done r => r
    | .root device isAbs tailChars =>
      let trail := win32IsSep (cs.getLastD ' ')
      let comps := (splitOnChar '\\' (tailChars.map (fun c => if c = '/' then '\\' else c))).map String.mk
      let tail0 := joinSegs '\\' (normComps (!isAbs) comps)
      let tail1 := if tail0 = "" && !isAbs then "." else tail0
      let tail2 := if tail1 ≠ "" && trail then tail1 ++ "\\" else tail1
      match device with
      | none => if isAbs then "\\" ++ tail2 else tail2
      | some d => if isAbs then d ++ "\\" ++ tail2 else d ++ tail2

/-- Node `path.win32.join`: non-empty parts joined by a backslash, with
the leading-slash collapse that protects normalize from fabricating a
UNC root, then normalized. -/
def win32Join (parts : List String) : String :=
  let nonEmpty := parts.filter (fun p => p ≠ "")
  match nonEmpty with
  | [] => "."
  | first :: _ =>
    let joined := joinSegs '\\' nonEmpty
    let needsReplace :=
      match first.data with
      | [] => false
      | c0 :: rest =>
        win32IsSep c0 &&
          (match rest with
           | [] => true
           | c1 :: rest2 =>
             if win32IsSep c1 then
               match rest2 with
               | [] => true
               | c2 :: _ => win32IsSep c2
             else true)
    let fixed :=
      if needsReplace then
        let lead := (joined.data.takeWhile win32IsSep).length
        if lead ≥ 2 then "\\" ++ String.mk (joined.data.drop lead) else joined
      else joined
    win32Normalize fixed

/-- Fully-qualified test for a Windows path: rooted, or a drive letter
followed by a colon and a separator. -/
def win32IsAbsoluteFull (s : String) : Bool :=
  match s.data with
  | c0 :: rest =>
    if win32IsSep c0 then true
    else
      (match rest with
       | ':' :: c2 :: _ => isDriveLetter c0 && win32IsSep c2
       | _ => false)
  | [] => false

/-- Node `path.win32.resolve` with a single path argument against an
explicit current working directory.  Fully-qualified inputs normalize
directly; other inputs are joined onto the cwd (drive-relative inputs,
which the embedded code never produces, resolve against the cwd too). -/
def win32Resolve (cwd : String) (p : String) : String :=
  if win32IsAbsoluteFull p then win32Normalize p
  else win32Normalize (cwd ++ "\\" ++ p)

/-- Root parsing of Node `path.win32.dirname`; `whole` is the early
return of the full path for a bare UNC root. -/
inductive DirRoot where
  | whole
  | info (rootEnd : Option Nat) (offset : Nat)

/-- Length of the leading run of non-separator characters. -/
def countNonSep (cs : List Char) : Nat :=
  (cs.takeWhile (fun c => !win32IsSep c)).length

/-- Length of the leading run of separator characters. -/
def countSep (cs : List Char) : Nat :=
  (cs.takeWhile win32IsSep).length

/-- Root analysis for `win32Dirname` on strings of length at least two. -/
def win32DirRoot (cs : List Char) : DirRoot :=
  match cs with
  | c0 :: c1 :: rest =>
    if win32IsSep c0 then
      if win32IsSep c1 then
        let n1 := countNonSep rest
        if n1 = 0 || n1 = rest.length then .info (some 1) 1
        else
          let r1 := rest.drop n1
          let n2 := countSep r1
          if n2 = r1.length then .info (some 1) 1
          else
            let r2 := r1.drop n2
            let n3 := countNonSep r2
            if n3 = r2.length then .whole
            else .info (some (3 + n1 + n2 + n3)) (3 + n1 + n2 + n3)
      else .info (some 1) 1
    else if isDriveLetter c0 && c1 = ':' then
      match rest with
      | c2 :: _ => if win32IsSep c2 then .info (some 3) 3 else .info (some 2) 2
      | [] => .info (some 2) 2
    else .info none 0
  | _ => .info none 0

/-- Node `path.win32.dirname`. -/
def win32Dirname (s : String) : String :=
  match s.data with
  | [] => "."
  | [c] => if win32IsSep c then s else "."
  | cs =>
    match win32DirRoot cs with
    | .whole => s
    | .info rootEnd offset =>
      let tl := cs.drop offset
      let rev1 := tl.reverse.dropWhile win32IsSep
      let rev2 := rev1.dropWhile (fun c => !win32IsSep c)
      match rev2 with
      | [] =>
        match rootEnd with
        | none => "."
        | some r => String.mk (cs.take r)
      | _ => String.mk (cs.take (offset + rev2.length - 1))

/-- Platform-dispatching Node `path.join`. -/
def pathJoin (isWin : Bool) (parts : List String) : String :=
  if isWin then win32Join parts else posixJoin parts

/-! ## Environment maps

A JavaScript object of environment variables is modelled as an ordered
association list (insertion order is observable through Object.keys).
-/

/-- Environment map: ordered key/value pairs. -/
abbrev Env : Type := List (String × String)

/-- Property access env\x7bkey\x7d: the first binding wins. -/
def envGet (env : Env) (k : String) : Option String :=
  match env.find? (fun kv => kv.1 = k) with
  | some kv => some kv.2
  | none => none

/-- Property assignment: replaces the binding in place, or appends a new
binding in insertion order. -/
def envSet (env : Env) (k v : String) : Env :=
  if env.any (fun kv => kv.1 = k) then
    env.map (fun kv => if kv.1 = k then (k, v) else kv)
  else env ++ [(k, v)]

/-- Assign the same value to every key of a list, left to right. -/
def envSetAll (env : Env) (ks : List String) (v : String) : Env :=
  ks.foldl (fun acc k => envSet acc k v) env

/-- Object.keys in insertion order. -/
def envKeys (env : Env) : List String :=
  env.map Prod.fst

/-! ## shell-env module (src/unnamed/part_002) -/

/-- PATH separator: semicolon on Windows, colon elsewhere. -/
def pathSepChar (isWin : Bool) : Char := if isWin then ';' else ':'

/-- Keys of the environment whose lower-case form is "path". -/
def envPathKeys (env : Env) : List String :=
  (envKeys env).filter (fun k => lowerStr k = "path")

/-- The canonical PATH-like key: the first existing one, else the
platform default. -/
def canonicalPathKey (isWin : Bool) (env : Env) : String :=
  (envPathKeys env).headD (if isWin then "Path" else "PATH")

/-- Home directory resolution from environment candidates with the OS
home directory as final fallback. -/
def homeDirFromEnv (osHome : String) (env : Env) : String :=
  jsOrS (envGet env "HOME")
    (jsOrS (envGet env "Home")
      (jsOrS (envGet env "USERPROFILE")
        (jsOrS (envGet env "UserProfile") osHome)))

/-- The synthesized Cherry Studio tool-bin directory for an environment. -/
def cherryBinPath (isWin : Bool) (osHome : String) (env : Env) : String :=
  pathJoin isWin [homeDirFromEnv osHome env, ".cherrystudio", "bin"]

/-- The existing PATH value consulted before appending. -/
def existingPathValue (isWin : Bool) (env : Env) : String :=
  jsOrS (envGet env (canonicalPathKey isWin env)) (jsOrS (envGet env "PATH") "")

/-- Segment canonicalisation for duplicate detection: path-normalize,
and case-fold only on Windows. -/
def normaliseSegment (isWin : Bool) (s : String) : String :=
  if isWin then lowerStr (win32Normalize s) else posixNormalize s

/-- The pushIfUnique fold: keeps the first occurrence of each
canonicalised segment and drops empty segments. -/
def pushUniqueAux (isWin : Bool) (seen : List String) : List String → List String
  | [] => []
  | x :: xs =>
    if x = "" then pushUniqueAux isWin seen xs
    else if normaliseSegment isWin x ∈ seen then pushUniqueAux isWin seen xs
    else x :: pushUniqueAux isWin (normaliseSegment isWin x :: seen) xs

/-- The deduplicated segment list produced by appendCherryBinToPath:
trimmed existing segments followed by the tool-bin directory, first
occurrence kept per canonicalised segment. -/
def appendedSegments (isWin : Bool) (osHome : String) (env : Env) : List String :=
  pushUniqueAux isWin []
    (((splitOnCharStr (pathSepChar isWin) (existingPathValue isWin env)).map jsTrimStr)
      ++ [cherryBinPath isWin osHome env])

/-- The PATH value written back by appendCherryBinToPath. -/
def cherryUpdatedPath (isWin : Bool) (osHome : String) (env : Env) : String :=
  joinSegs (pathSepChar isWin) (appendedSegments isWin osHome env)

/-- appendCherryBinToPath: appends the tool-bin directory to every
PATH-like key without duplicate segments, creating a canonical key when
none exists and mirroring the value to PATH on POSIX. -/
def appendCherryBinToPath (isWin : Bool) (osHome : String) (env : Env) : Env :=
  let pathKeys := envPathKeys env
  let updatedPath := cherryUpdatedPath isWin osHome env
  let env1 :=
    if pathKeys = [] then envSet env (canonicalPathKey isWin env) updatedPath
    else envSetAll env pathKeys updatedPath
  if isWin then env1 else envSet env1 "PATH" updatedPath

/-- Lookup used by expandWindowsEnvVars: first key whose lower-case form
matches the variable name, case-insensitively. -/
def envFindCI (env : Env) (name : String) : Option String :=
  match env.find? (fun kv => lowerStr kv.1 = lowerStr name) with
  | some kv => some kv.2
  | none => none

/-- Replacement for one matched percent token. -/
def tokRepl (env : Env) (tok : List Char) : List Char :=
  match envFindCI env (String.mk tok) with
  | some v => v.data
  | none => '%' :: tok ++ ['%']

/-- One-pass scanner implementing the global regex replace of
percent-delimited tokens.  The first argument is the scanner state:
none outside a token, and the characters collected so far (reversed)
when a percent sign has opened a candidate token.  A closed non-empty
token is replaced via case-insensitive lookup or kept verbatim; an
immediately repeated percent sign emits the first one literally (the
regex requires a non-empty name); an unclosed token at the end of the
input passes through unchanged. -/
def expandLoop (env : Env) : Option (List Char) → List Char → List Char
  | none, [] => []
  | none, c :: rest =>
    if c = '%' then expandLoop env (some []) rest
    else c :: expandLoop env none rest
  | some acc, [] => '%' :: acc.reverse
  | some acc, c :: rest =>
    if c = '%' then
      (if acc = [] then '%' :: expandLoop env (some []) rest
       else tokRepl env acc.reverse ++ expandLoop env none rest)
    else expandLoop env (some (c :: acc)) rest

/-- Character-level percent expansion. -/
def expandChars (env : Env) (cs : List Char) : List Char :=
  expandLoop env none cs

/-- expandWindowsEnvVars: replace percent-delimited variable references
with values from the environment, matched case-insensitively; unresolved
tokens stay verbatim. -/
def expandWindowsEnvVars (value : String) (env : Env) : String :=
  String.mk (expandChars env value.data)

/-- readWindowsRegistryPath: combine the machine-scope and user-scope
registry PATH reads (each modelled as the optional string a successful
`reg query` parse would yield, none for a failed read), system first,
joined by a semicolon, with percent tokens expanded; none when both
reads fail. -/
def readWindowsRegistryPath (regSystem regUser : Option String) (env : Env) : Option String :=
  if !jsTruthy regSystem && !jsTruthy regUser then none
  else
    let pieces := ((([regSystem, regUser].map (fun o => jsOrS o "")).filter (fun s => s ≠ "")))
    some (expandWindowsEnvVars (joinSegs ';' pieces) env)

/-- getWindowsEnvironment: copy of the host process environment whose
PATH-like keys are replaced by the registry value when available, then
the tool-bin directory is appended. -/
def getWindowsEnvironment (osHome : String) (regSystem regUser : Option String)
    (processEnv : Env) : Env :=
  match readWindowsRegistryPath regSystem regUser processEnv with
  | some registryPath =>
    let pathKeys := envPathKeys processEnv
    let env1 :=
      if pathKeys = [] then envSet processEnv "Path" registryPath
      else envSetAll processEnv pathKeys registryPath
    appendCherryBinToPath true osHome env1
  | none => appendCherryBinToPath true osHome processEnv

/-- fetchShellEnv: runs the platform probe (its settled outcome is the
`probe` argument — on POSIX an error covers a spawn failure, a non-zero
exit or the 15-second timeout) and catches every failure by falling back
to a copy of the host process environment with the tool-bin directory
appended.  The try/catch makes this total: it never throws. -/
def fetchShellEnv (isWin : Bool) (osHome : String) (probe : Except String Env)
    (processEnv : Env) : Env :=
  match probe with
  | .ok env => env
  | .error _ => appendCherryBinToPath isWin osHome processEnv

/-- State of the module-level shell-environment cache: the cached map
(null before first population) together with an instrumentation counter
of how many probes (fetchShellEnv calls) have been started. -/
structure ShellEnvCacheState where
  cachedEnv : Option Env
  probes : Nat
deriving DecidableEq

/-- getShellEnv run to completion in isolation (no interleaving): on a
cache miss it performs one probe, stores the result and returns it; on a
hit it returns the cached map without probing. -/
def getShellEnv (isWin : Bool) (osHome : String) (s : ShellEnvCacheState)
    (probe : Except String Env) (processEnv : Env) : Env × ShellEnvCacheState :=
  match s.cachedEnv with
  | some e => (e, s)
  | none =>
    let e := fetchShellEnv isWin osHome probe processEnv
    (e, { cachedEnv := some e, probes := s.probes + 1 })

/-- refreshShellEnv: unconditionally re-probes, overwrites the cache and
returns the fresh map. -/
def refreshShellEnv (isWin : Bool) (osHome : String) (s : ShellEnvCacheState)
    (probe : Except String Env) (processEnv : Env) : Env × ShellEnvCacheState :=
  let e := fetchShellEnv isWin osHome probe processEnv
  (e, { cachedEnv := some e, probes := s.probes + 1 })

/-- The synchronous phase of one getShellEnv call, up to its await: the
null check on cachedEnv happens before any assignment, so a call that
finds the cache empty starts its own probe (the returned flag) and
suspends; cachedEnv is only written when that probe settles.  This is
the event-loop decomposition of the async function body. -/
def getShellEnvStart (s : ShellEnvCacheState) : ShellEnvCacheState × Bool :=
  match s.cachedEnv with
  | some _ => (s, false)
  | none => ({ s with probes := s.probes + 1 }, true)

/-- The resumption of a suspended getShellEnv call when its probe
settles: the result is assigned to the cache and returned. -/
def getShellEnvSettle (s : ShellEnvCacheState) (result : Env) : ShellEnvCacheState :=
  { s with cachedEnv := some result }

/-! ## process.ts (src/src/main/utils/process.ts) -/

/-- First character class of the command-name safety regex. -/
def isWordStart (c : Char) : Bool := c.isAlpha || c.isDigit || c = '_'

/-- Repeated character class of the command-name safety regex. -/
def isWordRest (c : Char) : Bool := isWordStart c || c = '-'

/-- Anchored test of VALID_COMMAND_NAME_REGEX: one character from the
word class followed by at most 127 characters from the word-or-hyphen
class. -/
def validCommandName (s : String) : Bool :=
  match s.data with
  | [] => false
  | c :: rest => isWordStart c && rest.length ≤ 127 && rest.all isWordRest

/-- Settled behaviour of one spawned lookup child process. -/
inductive SpawnOutcome where
  | closed (exitCode : Option Int) (stdout : String)
  | errored
  | timedOut

/-- Result filtering of the Windows `where` branch: zero exit with
non-blank output, first line ending in .exe (case-insensitively). -/
def winWhereResult (outcome : SpawnOutcome) : Option String :=
  match outcome with
  | .closed code out =>
    if code = some 0 && jsTrimStr out ≠ "" then
      (splitCRLFStr (jsTrimStr out)).find? (fun p => strEndsWith (lowerStr p) ".exe")
    else none
  | _ => none

/-- Result filtering of the POSIX `command -v` branch: zero exit with
non-blank output whose first line is an absolute path. -/
def posixCmdVResult (outcome : SpawnOutcome) : Option String :=
  match outcome with
  | .closed code out =>
    if code = some 0 && jsTrimStr out ≠ "" then
      let commandPath := (splitOnCharStr '\n' (jsTrimStr out)).headD ""
      if posixIsAbsolute commandPath then some commandPath else none
    else none
  | _ => none

/-- findCommandInShellEnv: validates the command name against the safety
regex before any spawn, then consults the platform lookup subprocess
(whose settled behaviour is the `outcome` oracle).  The second component
counts how many subprocesses were spawned. -/
def findCommandInShellEnv (isWin : Bool) (command : String) (loginShellEnv : Env)
    (outcome : SpawnOutcome) : Option String × Nat :=
  if !validCommandName command then (none, 0)
  else if isWin then (winWhereResult outcome, 1)
  else (posixCmdVResult outcome, 1)

/-- External world of the Windows executable discovery functions: the
platform flag, the process working directory, the filesystem existence
oracle, the where.exe oracle (none models a thrown execFileSync), the
Git-Bash override variable and the install-root environment variables of
the host process. -/
structure World where
  isWin : Bool
  cwd : String
  fsExists : String → Bool
  whereOutput : String → Option String
  envOverride : Option String
  programFiles : Option String
  programFilesX86 : Option String
  localAppData : Option String

/-- getCommonGitRoots: the common Git installation roots derived from
the host process environment. -/
def getCommonGitRoots (w : World) : List String :=
  [win32Join [jsOrS w.programFiles "C:\\Program Files", "Git"],
   win32Join [jsOrS w.programFilesX86 "C:\\Program Files (x86)", "Git"]]
    ++ (if jsTruthy w.localAppData then [win32Join [jsOrS w.localAppData "", "Programs", "Git"]] else [])

/-- findExecutable: Windows-only lookup via common Git roots (for git)
and where.exe, filtering candidates by allowed extension and rejecting
candidates whose directory is the working directory or below it. -/
def findExecutable (w : World) (name : String) (extensions : List String) : Option String :=
  if !w.isWin then none
  else
    let gitHit :=
      if name = "git" then
        (getCommonGitRoots w).findSome? (fun root =>
          let gitPath := win32Join [root, "cmd", "git.exe"]
          if w.fsExists gitPath then some gitPath else none)
      else none
    match gitHit with
    | some g => some g
    | none =>
      match w.whereOutput name with
      | none => none
      | some result =>
        let paths := (splitCRLFStr (jsTrimStr result)).filter (fun p => p ≠ "")
        let currentDir := lowerStr w.cwd
        paths.findSome? (fun exePath =>
          let cleanPath := jsTrimStr exePath
          let lowerPath := lowerStr cleanPath
          if !extensions.any (fun ext => strEndsWith lowerPath (lowerStr ext)) then none
          else
            let resolvedPath := lowerStr (win32Resolve w.cwd cleanPath)
            let execDir := lowerStr (win32Dirname resolvedPath)
            if execDir = currentDir || strStartsWith execDir (currentDir ++ "\\") then none
            else some cleanPath)

/-- validateGitBashPath: resolves the candidate, requires it to exist
and requires the resolved path to end (case-insensitively) with the
string bash.exe; anything else is rejected as null. -/
def validateGitBashPath (w : World) (customPath : Option String) : Option String :=
  match customPath with
  | none => none
  | some cp =>
    if cp = "" then none
    else
      let resolved := win32Resolve w.cwd cp
      if !w.fsExists resolved then none
      else if strEndsWith (lowerStr resolved) "bash.exe" then some resolved
      else none

/-- findGitBash: Windows-only bash.exe discovery.  Order: a truthy
custom (configured) path that validates; then the environment override
CLAUDE_CODE_GIT_BASH_PATH when truthy and valid; then derivation from a
discovered git.exe through the three known installation layouts; then
the common installation roots. -/
def findGitBash (w : World) (customPath : Option String) : Option String :=
  if !w.isWin then none
  else
    let step4 : Option String :=
      (getCommonGitRoots w).findSome? (fun root =>
        let fullPath := win32Join [root, "bin", "bash.exe"]
        if w.fsExists fullPath then some fullPath else none)
    let step3 : Option String :=
      match findExecutable w "git" [".exe", ".cmd"] with
      | some gitPath =>
        let possibleBashPaths :=
          [win32Join [gitPath, "..", "..", "bin", "bash.exe"],
           win32Join [gitPath, "..", "bash.exe"],
           win32Join [gitPath, "..", "..", "usr", "bin", "bash.exe"]]
        match possibleBashPaths.findSome? (fun bashPath =>
            let resolvedBashPath := win32Resolve w.cwd bashPath
            if w.fsExists resolvedBashPath then some resolvedBashPath else none) with
        | some b => some b
        | none => step4
      | none => step4
    let step2 : Option String :=
      if jsTruthy w.envOverride then
        match validateGitBashPath w w.envOverride with
        | some v => some v
        | none => step3
      else step3
    if jsTruthy customPath then
      match validateGitBashPath w customPath with
      | some v => some v
      | none => step2
    else step2

/-- Persisted configuration slice used by the Git Bash locator: the two
keys GitBashPath and GitBashPathSource of the config store. -/
structure GitBashConfig where
  gitBashPath : Option String
  gitBashPathSource : Option String
deriving DecidableEq

/-- autoDiscoverGitBash: environment override first, then the persisted
configured path when truthy and valid, then findGitBash discovery whose
result is persisted with source auto.  Returns the resolved path and the
possibly-updated configuration. -/
def autoDiscoverGitBash (w : World) (cfg : GitBashConfig) : Option String × GitBashConfig :=
  if !w.isWin then (none, cfg)
  else
    let discover : Option String × GitBashConfig :=
      match findGitBash w none with
      | some d => (some d, { gitBashPath := some d, gitBashPathSource := some "auto" })
      | none => (none, cfg)
    let step2 : Option String × GitBashConfig :=
      if jsTruthy cfg.gitBashPath then
        match validateGitBashPath w cfg.gitBashPath with
        | some v => (some v, cfg)
        | none => discover
      else discover
    if jsTruthy w.envOverride then
      match validateGitBashPath w w.envOverride with
      | some v => (some v, cfg)
      | none => step2
    else step2

/-- getGitBashPathInfo: returns the persisted path and source as stored
(no validation); only when no truthy path is configured does it trigger
auto-discovery, reporting source auto on success. -/
def getGitBashPathInfo (w : World) (cfg : GitBashConfig) :
    (Option String × Option String) × GitBashConfig :=
  if !w.isWin then ((none, none), cfg)
  else
    let path0 := cfg.gitBashPath
    let source0 := cfg.gitBashPathSource
    if !jsTruthy path0 then
      let r := autoDiscoverGitBash w cfg
      ((r.1, if r.1.isSome then some "auto" else none), r.2)
    else ((path0, source0), cfg)

/-- The set of canonicalised segments recorded by the pushIfUnique fold
after processing a list, used to reason about `pushUniqueAux`. -/
def seenAfter (isWin : Bool) (seen : List String) : List String → List String
  | [] => seen
  | x :: xs =>
    if x = "" then seenAfter isWin seen xs
    else if normaliseSegment isWin x ∈ seen then seenAfter isWin seen xs
    else seenAfter isWin (normaliseSegment isWin x :: seen) xs

/-! ## Helper lemmas: strings and lists -/

theorem dropWhile_dropWhile_self (p : Char → Bool) (l : List Char) :
    (l.dropWhile p).dropWhile p = l.dropWhile p := by
  induction l with
  | nil => rfl
  | cons c t ih =>
    by_cases h : p c
    · simp [List.dropWhile, h, ih]
    · simp [List.dropWhile, h]

theorem mem_dropWhile_subset (p : Char → Bool) (l : List Char) (c : Char)
    (h : c ∈ l.dropWhile p) : c ∈ l := by
  induction l with
  | nil => simp [List.dropWhile] at h
  | cons a t ih =>
    by_cases ha : p a
    · simp [List.dropWhile, ha] at h
      exact List.mem_cons_of_mem a (ih h)
    · simpa [List.dropWhile, ha] using h

theorem mem_trimChars_subset (l : List Char) (c : Char) (h : c ∈ trimChars l) : c ∈ l := by
  unfold trimChars at h
  rw [List.mem_reverse] at h
  have h1 := mem_dropWhile_subset isJsWs (l.dropWhile isJsWs).reverse c h
  rw [List.mem_reverse] at h1
  exact mem_dropWhile_subset isJsWs l c h1

theorem dropWhile_head_false (p : Char → Bool) (l : List Char) (c : Char) (t : List Char)
    (h : l.dropWhile p = c :: t) : p c = false := by
  induction l with
  | nil => simp [List.dropWhile] at h
  | cons a s ih =>
    by_cases ha : p a
    · rw [List.dropWhile_cons_of_pos ha] at h
      exact ih h
    · rw [List.dropWhile_cons_of_neg ha] at h
      injection h with h1 _
      subst h1
      simpa using ha

theorem trimChars_no_leading (l : List Char) :
    (trimChars l).dropWhile isJsWs = trimChars l := by
  cases hx : trimChars l with
  | nil => simp
  | cons c t =>
    have hsuf : (l.dropWhile isJsWs).reverse.dropWhile isJsWs <:+ (l.dropWhile isJsWs).reverse :=
      List.dropWhile_suffix isJsWs
    have hpre : trimChars l <+: l.dropWhile isJsWs :=
      List.reverse_suffix.mp (by simpa [trimChars] using hsuf)
    rw [hx] at hpre
    obtain ⟨r, hr⟩ := hpre
    have hc : isJsWs c = false :=
      dropWhile_head_false isJsWs l c (t ++ r) hr.symm
    rw [List.dropWhile_cons_of_neg (by simp [hc])]

theorem trimChars_idem (l : List Char) : trimChars (trimChars l) = trimChars l := by
  have claim2 : (trimChars l).reverse.dropWhile isJsWs = (trimChars l).reverse := by
    unfold trimChars
    rw [List.reverse_reverse]
    exact dropWhile_dropWhile_self isJsWs _
  calc trimChars (trimChars l)
      = (((trimChars l).dropWhile isJsWs).reverse.dropWhile isJsWs).reverse := rfl
    _ = ((trimChars l).reverse.dropWhile isJsWs).reverse := by rw [trimChars_no_leading]
    _ = ((trimChars l).reverse).reverse := by rw [claim2]
    _ = trimChars l := List.reverse_reverse _

theorem jsTrimStr_idem (s : String) : jsTrimStr (jsTrimStr s) = jsTrimStr s := by
  unfold jsTrimStr
  rw [show (String.mk (trimChars s.data)).data = trimChars s.data from rfl, trimChars_idem]

theorem splitOnChar_pieces_no_sep (sep : Char) (cs : List Char) :
    ∀ piece ∈ splitOnChar sep cs, sep ∉ piece := by
  induction cs with
  | nil => intro piece hp; simp [splitOnChar] at hp; simp [hp]
  | cons c rest ih =>
    intro piece hp
    by_cases hc : c = sep
    · rw [show splitOnChar sep (c :: rest) = [] :: splitOnChar sep rest from by
        simp [splitOnChar, hc]] at hp
      rcases List.mem_cons.mp hp with hp1 | hp1
      · simp [hp1]
      · exact ih piece hp1
    · rw [show splitOnChar sep (c :: rest) =
          (match splitOnChar sep rest with
           | [] => [[c]]
           | h :: t => (c :: h) :: t) from by simp [splitOnChar, hc]] at hp
      cases hr : splitOnChar sep rest with
      | nil => rw [hr] at hp; simp at hp; simp [hp, hc, Ne.symm]
      | cons h t =>
        rw [hr] at hp
        simp at hp
        rcases hp with hp | hp
        · subst hp
          intro hmem
          rcases List.mem_cons.mp hmem with he | he
          · exact hc he.symm
          · exact ih h (by rw [hr]; exact List.mem_cons_self h t) he
        · exact ih piece (by rw [hr]; exact List.mem_cons_of_mem h hp)

theorem splitOnChar_of_not_mem (sep : Char) (cs : List Char) (h : sep ∉ cs) :
    splitOnChar sep cs = [cs] := by
  induction cs with
  | nil => rfl
  | cons c rest ih =>
    have hc : ¬ c = sep := fun he => h (by simp [he])
    have hrest : sep ∉ rest := fun hm => h (List.mem_cons_of_mem c hm)
    rw [show splitOnChar sep (c :: rest) =
        (match splitOnChar sep rest with
         | [] => [[c]]
         | h :: t => (c :: h) :: t) from by simp [splitOnChar, hc]]
    rw [ih hrest]

theorem splitOnChar_append_sep (sep : Char) (a b : List Char) (h : sep ∉ a) :
    splitOnChar sep (a ++ sep :: b) = a :: splitOnChar sep b := by
  induction a with
  | nil => simp [splitOnChar]
  | cons c rest ih =>
    have hc : ¬ c = sep := fun he => h (by simp [he])
    have hrest : sep ∉ rest := fun hm => h (List.mem_cons_of_mem c hm)
    rw [List.cons_append]
    rw [show splitOnChar sep (c :: (rest ++ sep :: b)) =
        (match splitOnChar sep (rest ++ sep :: b) with
         | [] => [[c]]
         | h :: t => (c :: h) :: t) from by simp [splitOnChar, hc]]
    rw [ih hrest]

theorem splitOnChar_joinChars (sep : Char) (xs : List (List Char)) (hne : xs ≠ [])
    (h : ∀ x ∈ xs, sep ∉ x) : splitOnChar sep (joinChars sep xs) = xs := by
  induction xs with
  | nil => exact absurd rfl hne
  | cons x rest ih =>
    cases rest with
    | nil =>
      rw [show joinChars sep [x] = x from rfl]
      exact splitOnChar_of_not_mem sep x (h x (by simp))
    | cons y t =>
      rw [show joinChars sep (x :: y :: t) = x ++ sep :: joinChars sep (y :: t) from rfl]
      rw [splitOnChar_append_sep sep x _ (h x (by simp))]
      rw [ih (by simp) (fun z hz => h z (List.mem_cons_of_mem x hz))]

/-! ## Helper lemmas: the pushIfUnique fold -/

theorem pushUniqueAux_append (isWin : Bool) (seen : List String) (l m : List String) :
    pushUniqueAux isWin seen (l ++ m)
      = pushUniqueAux isWin seen l ++ pushUniqueAux isWin (seenAfter isWin seen l) m := by
  induction l generalizing seen with
  | nil => simp [pushUniqueAux, seenAfter]
  | cons x xs ih =>
    by_cases hx : x = ""
    · simp [pushUniqueAux, seenAfter, hx, ih]
    · by_cases hseen : normaliseSegment isWin x ∈ seen
      · simp [pushUniqueAux, seenAfter, hx, hseen, ih]
      · simp [pushUniqueAux, seenAfter, hx, hseen, ih]

theorem mem_seenAfter_of_mem_seen (isWin : Bool) (seen : List String) (l : List String)
    (x : String) (h : x ∈ seen) : x ∈ seenAfter isWin seen l := by
  induction l generalizing seen with
  | nil => simpa [seenAfter] using h
  | cons y ys ih =>
    by_cases hy : y = ""
    · simpa [seenAfter, hy] using ih seen h
    · by_cases hseen : normaliseSegment isWin y ∈ seen
      · simpa [seenAfter, hy, hseen] using ih seen h
      · simpa [seenAfter, hy, hseen] using
          ih (normaliseSegment isWin y :: seen) (List.mem_cons_of_mem _ h)

theorem mem_seenAfter_iff (isWin : Bool) (seen : List String) (l : List String) (x : String) :
    x ∈ seenAfter isWin seen l
      ↔ x ∈ seen ∨ x ∈ (pushUniqueAux isWin seen l).map (normaliseSegment isWin) := by
  induction l generalizing seen with
  | nil => simp [seenAfter, pushUniqueAux]
  | cons y ys ih =>
    by_cases hy : y = ""
    · simp [seenAfter, pushUniqueAux, hy, ih]
    · by_cases hseen : normaliseSegment isWin y ∈ seen
      · simp [seenAfter, pushUniqueAux, hy, hseen, ih]
      · simp only [seenAfter, pushUniqueAux, if_neg hy, if_neg hseen, List.map_cons,
          List.mem_cons]
        rw [ih]
        simp only [List.mem_cons]
        tauto

theorem pushUniqueAux_mem (isWin : Bool) (seen : List String) (l : List String) (x : String)
    (h : x ∈ pushUniqueAux isWin seen l) : x ∈ l ∧ x ≠ "" := by
  induction l generalizing seen with
  | nil => simp [pushUniqueAux] at h
  | cons y ys ih =>
    by_cases hy : y = ""
    · rw [show pushUniqueAux isWin seen (y :: ys) = pushUniqueAux isWin seen ys from by
        simp [pushUniqueAux, hy]] at h
      rcases ih seen h with ⟨h1, h2⟩
      exact ⟨List.mem_cons_of_mem y h1, h2⟩
    · by_cases hseen : normaliseSegment isWin y ∈ seen
      · rw [show pushUniqueAux isWin seen (y :: ys) = pushUniqueAux isWin seen ys from by
          simp [pushUniqueAux, hy, hseen]] at h
        rcases ih seen h with ⟨h1, h2⟩
        exact ⟨List.mem_cons_of_mem y h1, h2⟩
      · rw [show pushUniqueAux isWin seen (y :: ys)
            = y :: pushUniqueAux isWin (normaliseSegment isWin y :: seen) ys from by
          simp [pushUniqueAux, hy, hseen]] at h
        rcases List.mem_cons.mp h with h1 | h1
        · exact ⟨by simp [h1], by simp [h1, hy]⟩
        · rcases ih _ h1 with ⟨h2, h3⟩
          exact ⟨List.mem_cons_of_mem y h2, h3⟩

theorem pushUniqueAux_keys_fresh (isWin : Bool) (seen : List String) (l : List String) :
    ∀ x ∈ (pushUniqueAux isWin seen l).map (normaliseSegment isWin), x ∉ seen := by
  induction l generalizing seen with
  | nil => simp [pushUniqueAux]
  | cons y ys ih =>
    by_cases hy : y = ""
    · simpa [pushUniqueAux, hy] using ih seen
    · by_cases hseen : normaliseSegment isWin y ∈ seen
      · simpa [pushUniqueAux, hy, hseen] using ih seen
      · intro x hx
        rw [show pushUniqueAux isWin seen (y :: ys)
            = y :: pushUniqueAux isWin (normaliseSegment isWin y :: seen) ys from by
          simp [pushUniqueAux, hy, hseen]] at hx
        simp only [List.map_cons, List.mem_cons] at hx
        rcases hx with hx | hx
        · subst hx; exact hseen
        · intro hmem
          exact ih (normaliseSegment isWin y :: seen) x hx (List.mem_cons_of_mem _ hmem)

theorem pushUniqueAux_keys_nodup (isWin : Bool) (seen : List String) (l : List String) :
    ((pushUniqueAux isWin seen l).map (normaliseSegment isWin)).Nodup := by
  induction l generalizing seen with
  | nil => simp [pushUniqueAux]
  | cons y ys ih =>
    by_cases hy : y = ""
    · simpa [pushUniqueAux, hy] using ih seen
    · by_cases hseen : normaliseSegment isWin y ∈ seen
      · simpa [pushUniqueAux, hy, hseen] using ih seen
      · rw [show pushUniqueAux isWin seen (y :: ys)
            = y :: pushUniqueAux isWin (normaliseSegment isWin y :: seen) ys from by
          simp [pushUniqueAux, hy, hseen]]
        simp only [List.map_cons, List.nodup_cons]
        refine ⟨fun hmem => ?_, ih _⟩
        exact pushUniqueAux_keys_fresh isWin _ ys _ hmem (by simp)

theorem pushUniqueAux_fixed (isWin : Bool) (seen : List String) (l : List String)
    (hne : ∀ x ∈ l, x ≠ "") (hnd : (l.map (normaliseSegment isWin)).Nodup)
    (hfresh : ∀ x ∈ l.map (normaliseSegment isWin), x ∉ seen) :
    pushUniqueAux isWin seen l = l := by
  induction l generalizing seen with
  | nil => simp [pushUniqueAux]
  | cons y ys ih =>
    have hy : y ≠ "" := hne y (by simp)
    have hseen : normaliseSegment isWin y ∉ seen := hfresh _ (by simp)
    rw [show pushUniqueAux isWin seen (y :: ys)
        = y :: pushUniqueAux isWin (normaliseSegment isWin y :: seen) ys from by
      simp [pushUniqueAux, hy, hseen]]
    simp only [List.map_cons, List.nodup_cons] at hnd
    congr 1
    refine ih _ (fun x hx => hne x (List.mem_cons_of_mem y hx)) hnd.2 ?_
    intro x hx hmem
    rcases List.mem_cons.mp hmem with h1 | h1
    · exact hnd.1 (h1 ▸ hx)
    · exact hfresh x (by simp only [List.map_cons, List.mem_cons]; exact Or.inr hx) h1

theorem mem_seenAfter_of_mem (isWin : Bool) (seen : List String) (l : List String)
    (c : String) (hc : c ≠ "") (hmem : c ∈ l) :
    normaliseSegment isWin c ∈ seenAfter isWin seen l := by
  induction l generalizing seen with
  | nil => simp at hmem
  | cons y ys ih =>
    rcases List.mem_cons.mp hmem with h1 | h1
    · subst h1
      by_cases hseen : normaliseSegment isWin c ∈ seen
      · by_cases hy : c = ""
        · exact absurd hy hc
        · simp only [seenAfter, if_neg hy, if_pos hseen]
          exact mem_seenAfter_of_mem_seen isWin seen ys _ hseen
      · simp only [seenAfter, if_neg hc, if_neg hseen]
        exact mem_seenAfter_of_mem_seen isWin _ ys _ (by simp)
    · by_cases hy : y = ""
      · simpa [seenAfter, hy] using ih seen h1
      · by_cases hseen : normaliseSegment isWin y ∈ seen
        · simpa [seenAfter, hy, hseen] using ih seen h1
        · simpa [seenAfter, hy, hseen] using ih _ h1

/-! ## Helper lemmas: environment maps -/

theorem envGet_envSet_self (e : Env) (k v : String) : envGet (envSet e k v) k = some v := by
  unfold envSet
  by_cases hany : e.any (fun kv => kv.1 = k)
  · rw [if_pos hany]
    induction e with
    | nil => simp at hany
    | cons a t ih =>
      by_cases ha : a.1 = k
      · simp [envGet, List.find?, ha]
      · simp only [List.any_cons, decide_eq_true_eq, ha, false_or] at hany
        simp only [List.map_cons, if_neg ha]
        rw [show envGet (a :: t.map (fun kv => if kv.1 = k then (k, v) else kv)) k
            = envGet (t.map (fun kv => if kv.1 = k then (k, v) else kv)) k from by
          simp [envGet, List.find?, ha]]
        exact ih hany
  · rw [if_neg hany]
    induction e with
    | nil => simp [envGet, List.find?]
    | cons a t ih =>
      simp only [List.any_cons, Bool.or_eq_true, decide_eq_true_eq, not_or] at hany
      rw [List.cons_append]
      rw [show envGet (a :: (t ++ [(k, v)])) k = envGet (t ++ [(k, v)]) k from by
        simp [envGet, List.find?, hany.1]]
      exact ih (by simpa using hany.2)

theorem envGet_map_replace (t : Env) (k v q : String) (hq : q ≠ k) :
    envGet (t.map (fun kv => if kv.1 = k then (k, v) else kv)) q = envGet t q := by
  induction t with
  | nil => rfl
  | cons a u ih =>
    by_cases ha : a.1 = k
    · have h1 : (if a.1 = k then (k, v) else a) = (k, v) := by simp [ha]
      simp only [List.map_cons, h1]
      rw [show envGet ((k, v) :: u.map (fun kv => if kv.1 = k then (k, v) else kv)) q
          = envGet (u.map (fun kv => if kv.1 = k then (k, v) else kv)) q from by
        simp [envGet, List.find?, Ne.symm hq]]
      rw [show envGet (a :: u) q = envGet u q from by
        simp [envGet, List.find?, ha ▸ Ne.symm hq]]
      exact ih
    · simp only [List.map_cons, if_neg ha]
      by_cases haq : a.1 = q
      · simp [envGet, List.find?, haq]
      · rw [show envGet (a :: u.map (fun kv => if kv.1 = k then (k, v) else kv)) q
            = envGet (u.map (fun kv => if kv.1 = k then (k, v) else kv)) q from by
          simp [envGet, List.find?, haq]]
        rw [show envGet (a :: u) q = envGet u q from by
          simp [envGet, List.find?, haq]]
        exact ih

theorem envGet_envSet_other (e : Env) (k v q : String) (hq : q ≠ k) :
    envGet (envSet e k v) q = envGet e q := by
  unfold envSet
  by_cases hany : e.any (fun kv => kv.1 = k)
  · rw [if_pos hany]
    exact envGet_map_replace e k v q hq
  · rw [if_neg hany]
    induction e with
    | nil => simp [envGet, List.find?, Ne.symm hq]
    | cons a t ih =>
      simp only [List.any_cons, Bool.or_eq_true, decide_eq_true_eq, not_or] at hany
      by_cases haq : a.1 = q
      · simp [envGet, List.find?, haq]
      · rw [List.cons_append]
        rw [show envGet (a :: (t ++ [(k, v)])) q = envGet (t ++ [(k, v)]) q from by
          simp [envGet, List.find?, haq]]
        rw [show envGet (a :: t) q = envGet t q from by
          simp [envGet, List.find?, haq]]
        exact ih (by simpa using hany.2)

theorem envGet_envSetAll (e : Env) (ks : List String) (v q : String) :
    envGet (envSetAll e ks v) q = if q ∈ ks then some v else envGet e q := by
  induction ks generalizing e with
  | nil => simp [envSetAll]
  | cons k t ih =>
    rw [show envSetAll e (k :: t) v = envSetAll (envSet e k v) t v from rfl]
    rw [ih]
    by_cases hqt : q ∈ t
    · simp [hqt]
    · by_cases hqk : q = k
      · subst hqk
        simp [hqt, envGet_envSet_self]
      · simp [hqt, hqk, envGet_envSet_other e k v q hqk]

theorem envKeys_envSet (e : Env) (k v : String) :
    envKeys (envSet e k v) = if k ∈ envKeys e then envKeys e else envKeys e ++ [k] := by
  unfold envSet
  by_cases hany : e.any (fun kv => kv.1 = k)
  · have hk : k ∈ envKeys e := by
      rcases List.any_eq_true.mp hany with ⟨kv, hkv, hkv2⟩
      simp only [decide_eq_true_eq] at hkv2
      exact hkv2 ▸ List.mem_map_of_mem Prod.fst hkv
    rw [if_pos hany, if_pos hk]
    unfold envKeys
    rw [List.map_map]
    apply List.map_congr_left
    intro a ha
    by_cases h : a.1 = k
    · simp [h]
    · simp [h]
  · have hk : k ∉ envKeys e := by
      intro hmem
      rcases List.mem_map.mp hmem with ⟨kv, hkv, hkv2⟩
      exact absurd (List.any_eq_true.mpr ⟨kv, hkv, by simp [hkv2]⟩) hany
    rw [if_neg hany, if_neg hk]
    simp [envKeys]

theorem envKeys_envSetAll_subset (e : Env) (ks : List String) (v : String) (q : String)
    (hq : q ∈ envKeys (envSetAll e ks v)) : q ∈ envKeys e ∨ q ∈ ks := by
  induction ks generalizing e with
  | nil => exact Or.inl hq
  | cons k t ih =>
    rw [show envSetAll e (k :: t) v = envSetAll (envSet e k v) t v from rfl] at hq
    rcases ih (envSet e k v) hq with h1 | h1
    · rw [envKeys_envSet] at h1
      by_cases hk : k ∈ envKeys e
      · rw [if_pos hk] at h1
        exact Or.inl h1
      · rw [if_neg hk] at h1
        rcases List.mem_append.mp h1 with h2 | h2
        · exact Or.inl h2
        · simp at h2
          exact Or.inr (by simp [h2])
    · exact Or.inr (List.mem_cons_of_mem k h1)

/-! ## Helper lemmas: appendCherryBinToPath -/

theorem envGet_none_of_not_mem (e : Env) (q : String) (h : q ∉ envKeys e) :
    envGet e q = none := by
  induction e with
  | nil => rfl
  | cons a t ih =>
    simp only [envKeys, List.map_cons, List.mem_cons, not_or] at h
    rw [show envGet (a :: t) q = envGet t q from by
      simp [envGet, List.find?, Ne.symm h.1]]
    exact ih (by simpa [envKeys] using h.2)

theorem mem_envKeys_envSet (e : Env) (k v q : String) (h : q ∈ envKeys e) :
    q ∈ envKeys (envSet e k v) := by
  rw [envKeys_envSet]
  by_cases hk : k ∈ envKeys e
  · simpa [hk] using h
  · simp [hk, List.mem_append, h]

theorem mem_envKeys_envSetAll (e : Env) (ks : List String) (v q : String)
    (h : q ∈ envKeys e) : q ∈ envKeys (envSetAll e ks v) := by
  induction ks generalizing e with
  | nil => exact h
  | cons k t ih =>
    exact ih (envSet e k v) (mem_envKeys_envSet e k v q h)

theorem envKeys_envSetAll_of_mem (e : Env) (ks : List String) (v : String)
    (h : ∀ k ∈ ks, k ∈ envKeys e) : envKeys (envSetAll e ks v) = envKeys e := by
  induction ks generalizing e with
  | nil => rfl
  | cons k t ih =>
    rw [show envSetAll e (k :: t) v = envSetAll (envSet e k v) t v from rfl]
    have hk : envKeys (envSet e k v) = envKeys e := by
      rw [envKeys_envSet, if_pos (h k (by simp))]
    rw [ih (envSet e k v) (fun x hx => hk ▸ h x (List.mem_cons_of_mem k hx)), hk]

theorem mem_envPathKeys_iff (env : Env) (q : String) :
    q ∈ envPathKeys env ↔ q ∈ envKeys env ∧ lowerStr q = "path" := by
  unfold envPathKeys
  rw [List.mem_filter]
  simp

theorem canonicalPathKey_lower (isWin : Bool) (env : Env) :
    lowerStr (canonicalPathKey isWin env) = "path" := by
  unfold canonicalPathKey
  cases hx : envPathKeys env with
  | nil =>
    cases isWin with
    | false => simp [List.headD]; decide
    | true => simp [List.headD]; decide
  | cons x t =>
    have : x ∈ envPathKeys env := by rw [hx]; simp
    rw [mem_envPathKeys_iff] at this
    simpa [List.headD] using this.2

theorem canonicalPathKey_mem_of_ne (isWin : Bool) (env : Env)
    (h : envPathKeys env ≠ []) :
    canonicalPathKey isWin env ∈ envPathKeys env := by
  unfold canonicalPathKey
  cases hx : envPathKeys env with
  | nil => exact absurd hx h
  | cons x t => simp [List.headD]

theorem joinSegs_ne_empty (sep : Char) (xs : List String) (hne : xs ≠ [])
    (h : ∀ x ∈ xs, x ≠ "") : joinSegs sep xs ≠ "" := by
  cases xs with
  | nil => exact absurd rfl hne
  | cons x t =>
    cases t with
    | nil =>
      have hx : x ≠ "" := h x (by simp)
      have hmk : joinSegs sep [x] = x := by
        cases x with
        | mk d => rfl
      rw [hmk]
      exact hx
    | cons y u =>
      simp only [joinSegs, joinChars, List.map_cons]
      intro hc
      have : (x.data ++ sep :: joinChars sep (y.data :: u.map String.data)) = [] := by
        have := congrArg String.data hc
        simpa using this
      simp at this

theorem envGet_appendInner (isWin : Bool) (osHome : String) (env : Env) (q : String)
    (hq : lowerStr q = "path") :
    envGet (if envPathKeys env = []
            then envSet env (canonicalPathKey isWin env) (cherryUpdatedPath isWin osHome env)
            else envSetAll env (envPathKeys env) (cherryUpdatedPath isWin osHome env)) q
      = if q ∈ envKeys env ∨ q = canonicalPathKey isWin env
        then some (cherryUpdatedPath isWin osHome env) else none := by
  by_cases hpk : envPathKeys env = []
  · rw [if_pos hpk]
    by_cases hqk : q = canonicalPathKey isWin env
    · rw [hqk, envGet_envSet_self]
      simp [hqk]
    · rw [envGet_envSet_other env _ _ q hqk]
      have hnk : q ∉ envKeys env := fun hmem => by
        have := (mem_envPathKeys_iff env q).mpr ⟨hmem, hq⟩
        rw [hpk] at this
        simp at this
      rw [envGet_none_of_not_mem env q hnk]
      simp [hnk, hqk]
  · rw [if_neg hpk, envGet_envSetAll]
    by_cases hqpk : q ∈ envPathKeys env
    · have hk := (mem_envPathKeys_iff env q).mp hqpk
      simp [hqpk, hk.1]
    · have hnk : q ∉ envKeys env := fun hmem =>
        hqpk ((mem_envPathKeys_iff env q).mpr ⟨hmem, hq⟩)
      have hqk : q ≠ canonicalPathKey isWin env := fun he =>
        hqpk (he ▸ canonicalPathKey_mem_of_ne isWin env hpk)
      rw [if_neg hqpk, envGet_none_of_not_mem env q hnk]
      simp [hnk, hqk]

theorem envGet_appendCherry_pathlike (isWin : Bool) (osHome : String) (env : Env) (q : String)
    (hq : lowerStr q = "path") :
    envGet (appendCherryBinToPath isWin osHome env) q
      = if q ∈ envKeys env ∨ q = canonicalPathKey isWin env ∨ (isWin = false ∧ q = "PATH")
        then some (cherryUpdatedPath isWin osHome env) else none := by
  unfold appendCherryBinToPath
  cases isWin with
  | true =>
    simp only [if_true]
    rw [envGet_appendInner true osHome env q hq]
    simp
  | false =>
    simp only [Bool.false_eq_true, if_false]
    by_cases hqP : q = "PATH"
    · rw [hqP, envGet_envSet_self]
      simp [hqP]
    · rw [envGet_envSet_other _ _ _ q hqP]
      rw [envGet_appendInner false osHome env q hq]
      simp [hqP]

theorem envGet_appendCherry_nonpath (isWin : Bool) (osHome : String) (env : Env) (q : String)
    (hq : lowerStr q ≠ "path") :
    envGet (appendCherryBinToPath isWin osHome env) q = envGet env q := by
  have hqP : q ≠ "PATH" := fun he => hq (by rw [he]; decide)
  have hqK : q ≠ canonicalPathKey isWin env := fun he =>
    hq (he ▸ canonicalPathKey_lower isWin env)
  have hinner : envGet (if envPathKeys env = []
      then envSet env (canonicalPathKey isWin env) (cherryUpdatedPath isWin osHome env)
      else envSetAll env (envPathKeys env) (cherryUpdatedPath isWin osHome env)) q
      = envGet env q := by
    by_cases hpk : envPathKeys env = []
    · rw [if_pos hpk]
      exact envGet_envSet_other env _ _ q hqK
    · rw [if_neg hpk, envGet_envSetAll]
      have hqpk : q ∉ envPathKeys env := fun hmem =>
        hq ((mem_envPathKeys_iff env q).mp hmem).2
      rw [if_neg hqpk]
  unfold appendCherryBinToPath
  cases isWin with
  | true => simpa only [if_true] using hinner
  | false =>
    simp only [Bool.false_eq_true, if_false]
    rw [envGet_envSet_other _ _ _ q hqP]
    exact hinner

theorem homeDir_appendCherry (isWin : Bool) (osHome : String) (env : Env) :
    homeDirFromEnv osHome (appendCherryBinToPath isWin osHome env)
      = homeDirFromEnv osHome env := by
  unfold homeDirFromEnv
  rw [envGet_appendCherry_nonpath isWin osHome env "HOME" (by decide),
    envGet_appendCherry_nonpath isWin osHome env "Home" (by decide),
    envGet_appendCherry_nonpath isWin osHome env "USERPROFILE" (by decide),
    envGet_appendCherry_nonpath isWin osHome env "UserProfile" (by decide)]

theorem cherryBin_appendCherry (isWin : Bool) (osHome : String) (env : Env) :
    cherryBinPath isWin osHome (appendCherryBinToPath isWin osHome env)
      = cherryBinPath isWin osHome env := by
  unfold cherryBinPath
  rw [homeDir_appendCherry]

theorem envKeys_appendCherry (isWin : Bool) (osHome : String) (env : Env) :
    envKeys (appendCherryBinToPath isWin osHome env)
      = if envPathKeys env = []
        then envKeys env ++ [if isWin then "Path" else "PATH"]
        else (if isWin = false ∧ "PATH" ∉ envKeys env
              then envKeys env ++ ["PATH"] else envKeys env) := by
  have hcanD : envPathKeys env = [] →
      canonicalPathKey isWin env = (if isWin then "Path" else "PATH") := by
    intro hpk
    unfold canonicalPathKey
    rw [hpk]
    rfl
  simp only [appendCherryBinToPath]
  by_cases hpk : envPathKeys env = []
  · rw [if_pos hpk, if_pos hpk, hcanD hpk]
    have hDlow : lowerStr (if isWin then "Path" else "PATH") = "path" := by
      cases isWin <;> decide
    have hDnk : (if isWin then "Path" else "PATH") ∉ envKeys env := fun hmem => by
      have := (mem_envPathKeys_iff env _).mpr ⟨hmem, hDlow⟩
      rw [hpk] at this
      simp at this
    have hk1 : envKeys (envSet env (if isWin then "Path" else "PATH")
        (cherryUpdatedPath isWin osHome env)) = envKeys env ++ [if isWin then "Path" else "PATH"] := by
      rw [envKeys_envSet, if_neg hDnk]
    cases isWin with
    | true => simpa using hk1
    | false =>
      simp only [Bool.false_eq_true, if_false] at hk1 ⊢
      rw [envKeys_envSet, hk1]
      rw [if_pos (by simp)]
  · rw [if_neg hpk, if_neg hpk]
    have hk1 : envKeys (envSetAll env (envPathKeys env) (cherryUpdatedPath isWin osHome env))
        = envKeys env :=
      envKeys_envSetAll_of_mem env _ _ (fun k hk => ((mem_envPathKeys_iff env k).mp hk).1)
    cases isWin with
    | true => simpa using hk1
    | false =>
      simp only [Bool.false_eq_true, if_false, true_and]
      rw [envKeys_envSet, hk1]
      by_cases hP : "PATH" ∈ envKeys env
      · rw [if_pos hP, if_neg (by simpa using hP)]
      · rw [if_neg hP, if_pos hP]

theorem envPathKeys_eq_of_keys (e1 e2 : Env) (h : envKeys e1 = envKeys e2) :
    envPathKeys e1 = envPathKeys e2 := by
  unfold envPathKeys
  rw [h]

theorem canonical_appendCherry (isWin : Bool) (osHome : String) (env : Env) :
    canonicalPathKey isWin (appendCherryBinToPath isWin osHome env)
      = canonicalPathKey isWin env := by
  have hA : envPathKeys (appendCherryBinToPath isWin osHome env)
      = (envKeys (appendCherryBinToPath isWin osHome env)).filter
          (fun k => lowerStr k = "path") := rfl
  have henv : envPathKeys env = (envKeys env).filter (fun k => lowerStr k = "path") := rfl
  rw [envKeys_appendCherry isWin osHome env] at hA
  by_cases hpk : envPathKeys env = []
  · rw [if_pos hpk] at hA
    rw [List.filter_append, ← henv, hpk] at hA
    have hD : ((([if isWin then "Path" else "PATH"] : List String)).filter
        (fun k => lowerStr k = "path")) = [if isWin then "Path" else "PATH"] := by
      cases isWin <;> decide
    rw [hD] at hA
    unfold canonicalPathKey
    rw [hA, hpk]
    cases isWin <;> rfl
  · rw [if_neg hpk] at hA
    by_cases hcase : isWin = false ∧ "PATH" ∉ envKeys env
    · rw [if_pos hcase] at hA
      rw [List.filter_append, ← henv] at hA
      have hD : ((["PATH"] : List String).filter (fun k => lowerStr k = "path")) = ["PATH"] := by
        decide
      rw [hD] at hA
      unfold canonicalPathKey
      rw [hA]
      cases hx : envPathKeys env with
      | nil => exact absurd hx hpk
      | cons x t => simp [List.headD]
    · rw [if_neg hcase] at hA
      rw [← henv] at hA
      unfold canonicalPathKey
      rw [hA]

theorem string_mk_data (s : String) : String.mk s.data = s := by
  cases s with
  | mk d => rfl

theorem splitOnCharStr_joinSegs (sep : Char) (xs : List String) (hne : xs ≠ [])
    (h : ∀ x ∈ xs, sep ∉ x.data) : splitOnCharStr sep (joinSegs sep xs) = xs := by
  unfold splitOnCharStr joinSegs
  rw [show (String.mk (joinChars sep (xs.map String.data))).data
      = joinChars sep (xs.map String.data) from rfl]
  rw [splitOnChar_joinChars sep (xs.map String.data) (by simpa using hne)
    (by intro d hd
        rcases List.mem_map.mp hd with ⟨x, hx, hxd⟩
        exact hxd ▸ h x hx)]
  rw [List.map_map]
  rw [show List.map (String.mk ∘ String.data) xs = List.map id xs from
    List.map_congr_left (fun x _ => string_mk_data x), List.map_id]

theorem appendedSegments_elem_props (isWin : Bool) (osHome : String) (env : Env) :
    ∀ x ∈ appendedSegments isWin osHome env,
      x ≠ "" ∧ (x = cherryBinPath isWin osHome env
        ∨ (jsTrimStr x = x ∧ pathSepChar isWin ∉ x.data)) := by
  intro x hx
  rcases pushUniqueAux_mem isWin [] _ x hx with ⟨hmem, hne⟩
  refine ⟨hne, ?_⟩
  rcases List.mem_append.mp hmem with h1 | h1
  · right
    rcases List.mem_map.mp h1 with ⟨y, hy, hyx⟩
    constructor
    · rw [← hyx]
      exact jsTrimStr_idem y
    · rcases List.mem_map.mp hy with ⟨piece, hpiece, hpy⟩
      have hnosep := splitOnChar_pieces_no_sep (pathSepChar isWin)
        (existingPathValue isWin env).data piece hpiece
      rw [← hyx, ← hpy]
      intro hmem2
      exact hnosep (mem_trimChars_subset piece _ hmem2)
  · left
    simpa using h1

theorem cherry_key_mem_appendedSegments (isWin : Bool) (osHome : String) (env : Env)
    (hcne : cherryBinPath isWin osHome env ≠ "") :
    normaliseSegment isWin (cherryBinPath isWin osHome env)
      ∈ (appendedSegments isWin osHome env).map (normaliseSegment isWin) := by
  have h1 := mem_seenAfter_of_mem isWin []
    (((splitOnCharStr (pathSepChar isWin) (existingPathValue isWin env)).map jsTrimStr)
      ++ [cherryBinPath isWin osHome env])
    (cherryBinPath isWin osHome env) hcne (by simp)
  have h2 := (mem_seenAfter_iff isWin [] _ _).mp h1
  simpa [appendedSegments] using h2

theorem appendedSegments_ne_nil (isWin : Bool) (osHome : String) (env : Env)
    (hcne : cherryBinPath isWin osHome env ≠ "") :
    appendedSegments isWin osHome env ≠ [] := by
  intro hnil
  have := cherry_key_mem_appendedSegments isWin osHome env hcne
  rw [hnil] at this
  simp at this

theorem pushUniqueAux_appendedSegments (isWin : Bool) (osHome : String) (env : Env) :
    pushUniqueAux isWin [] (appendedSegments isWin osHome env)
      = appendedSegments isWin osHome env := by
  apply pushUniqueAux_fixed
  · intro x hx
    exact (appendedSegments_elem_props isWin osHome env x hx).1
  · exact pushUniqueAux_keys_nodup isWin [] _
  · simp

theorem cherryUpdatedPath_ne_empty (isWin : Bool) (osHome : String) (env : Env)
    (hcne : cherryBinPath isWin osHome env ≠ "") :
    cherryUpdatedPath isWin osHome env ≠ "" := by
  unfold cherryUpdatedPath
  exact joinSegs_ne_empty _ _ (appendedSegments_ne_nil isWin osHome env hcne)
    (fun x hx => (appendedSegments_elem_props isWin osHome env x hx).1)

theorem existingPathValue_appendCherry (isWin : Bool) (osHome : String) (env : Env)
    (hcne : cherryBinPath isWin osHome env ≠ "") :
    existingPathValue isWin (appendCherryBinToPath isWin osHome env)
      = cherryUpdatedPath isWin osHome env := by
  unfold existingPathValue
  rw [canonical_appendCherry]
  rw [envGet_appendCherry_pathlike isWin osHome env _ (canonicalPathKey_lower isWin env)]
  rw [if_pos (Or.inr (Or.inl rfl))]
  simp only [jsOrS]
  rw [if_neg (cherryUpdatedPath_ne_empty isWin osHome env hcne)]

theorem appendedSegments_appendCherry (isWin : Bool) (osHome : String) (env : Env)
    (hcne : cherryBinPath isWin osHome env ≠ "")
    (hctrim : jsTrimStr (cherryBinPath isWin osHome env) = cherryBinPath isWin osHome env)
    (hcsep : pathSepChar isWin ∉ (cherryBinPath isWin osHome env).data) :
    appendedSegments isWin osHome (appendCherryBinToPath isWin osHome env)
      = appendedSegments isWin osHome env := by
  have hsegfree : ∀ x ∈ appendedSegments isWin osHome env, pathSepChar isWin ∉ x.data := by
    intro x hx
    rcases (appendedSegments_elem_props isWin osHome env x hx).2 with h | h
    · rw [h]; exact hcsep
    · exact h.2
  have htrimfix : ∀ x ∈ appendedSegments isWin osHome env, jsTrimStr x = x := by
    intro x hx
    rcases (appendedSegments_elem_props isWin osHome env x hx).2 with h | h
    · rw [h]; exact hctrim
    · exact h.1
  have hsplit : splitOnCharStr (pathSepChar isWin) (cherryUpdatedPath isWin osHome env)
      = appendedSegments isWin osHome env :=
    splitOnCharStr_joinSegs _ _ (appendedSegments_ne_nil isWin osHome env hcne) hsegfree
  have hmapid : (appendedSegments isWin osHome env).map jsTrimStr
      = appendedSegments isWin osHome env := by
    rw [List.map_congr_left (fun x hx => (htrimfix x hx : jsTrimStr x = id x))]
    simp
  show pushUniqueAux isWin []
      (((splitOnCharStr (pathSepChar isWin)
          (existingPathValue isWin (appendCherryBinToPath isWin osHome env))).map jsTrimStr)
        ++ [cherryBinPath isWin osHome (appendCherryBinToPath isWin osHome env)])
      = appendedSegments isWin osHome env
  rw [existingPathValue_appendCherry isWin osHome env hcne, cherryBin_appendCherry, hsplit,
    hmapid, pushUniqueAux_append, pushUniqueAux_appendedSegments]
  have hkey : normaliseSegment isWin (cherryBinPath isWin osHome env)
      ∈ seenAfter isWin [] (appendedSegments isWin osHome env) := by
    rw [mem_seenAfter_iff]
    right
    rw [pushUniqueAux_appendedSegments]
    exact cherry_key_mem_appendedSegments isWin osHome env hcne
  rw [show pushUniqueAux isWin (seenAfter isWin [] (appendedSegments isWin osHome env))
      [cherryBinPath isWin osHome env] = [] from by
    simp [pushUniqueAux, hcne, hkey]]
  simp

theorem cherryUpdatedPath_appendCherry (isWin : Bool) (osHome : String) (env : Env)
    (hcne : cherryBinPath isWin osHome env ≠ "")
    (hctrim : jsTrimStr (cherryBinPath isWin osHome env) = cherryBinPath isWin osHome env)
    (hcsep : pathSepChar isWin ∉ (cherryBinPath isWin osHome env).data) :
    cherryUpdatedPath isWin osHome (appendCherryBinToPath isWin osHome env)
      = cherryUpdatedPath isWin osHome env := by
  unfold cherryUpdatedPath
  rw [appendedSegments_appendCherry isWin osHome env hcne hctrim hcsep]

/-! ## Helper lemmas: percent expansion -/

theorem string_data_append (a b : String) : (a ++ b).data = a.data ++ b.data := rfl

theorem expandLoop_cons_ne (env : Env) (c : Char) (rest : List Char) (h : c ≠ '%') :
    expandLoop env none (c :: rest) = c :: expandLoop env none rest := by
  simp [expandLoop, h]

theorem expandChars_passthrough (env : Env) (cs rest : List Char) (h : '%' ∉ cs) :
    expandChars env (cs ++ rest) = cs ++ expandChars env rest := by
  unfold expandChars
  induction cs with
  | nil => simp
  | cons c t ih =>
    have hc : c ≠ '%' := fun he => h (by simp [he])
    have ht : '%' ∉ t := fun hm => h (List.mem_cons_of_mem c hm)
    rw [List.cons_append, expandLoop_cons_ne env c _ hc, ih ht]
    simp

theorem expandLoop_collect (env : Env) (nm : List Char) (acc rest : List Char)
    (h : '%' ∉ nm) :
    expandLoop env (some acc) (nm ++ rest) = expandLoop env (some (nm.reverse ++ acc)) rest := by
  induction nm generalizing acc with
  | nil => simp
  | cons c t ih =>
    have hc : c ≠ '%' := fun he => h (by simp [he])
    have ht : '%' ∉ t := fun hm => h (List.mem_cons_of_mem c hm)
    have hstep : expandLoop env (some acc) (c :: (t ++ rest))
        = expandLoop env (some (c :: acc)) (t ++ rest) := by
      simp [expandLoop, hc]
    rw [List.cons_append, hstep, ih (c :: acc) ht]
    simp

theorem mem_envKeys_appendCherry (isWin : Bool) (osHome : String) (env : Env) (q : String)
    (h : q ∈ envKeys env) : q ∈ envKeys (appendCherryBinToPath isWin osHome env) := by
  rw [envKeys_appendCherry]
  split_ifs with h1 h2
  all_goals first
    | exact List.mem_append_left _ h
    | exact h

theorem envKeys_appendCherry_cases (isWin : Bool) (osHome : String) (env : Env) (q : String)
    (h : q ∈ envKeys (appendCherryBinToPath isWin osHome env)) :
    q ∈ envKeys env ∨ q = canonicalPathKey isWin env ∨ (isWin = false ∧ q = "PATH") := by
  rw [envKeys_appendCherry] at h
  by_cases hpk : envPathKeys env = []
  · rw [if_pos hpk] at h
    rcases List.mem_append.mp h with h1 | h1
    · exact Or.inl h1
    · simp only [List.mem_singleton] at h1
      refine Or.inr (Or.inl ?_)
      rw [h1]
      unfold canonicalPathKey
      rw [hpk]
      cases isWin <;> rfl
  · rw [if_neg hpk] at h
    by_cases hc : isWin = false ∧ "PATH" ∉ envKeys env
    · rw [if_pos hc] at h
      rcases List.mem_append.mp h with h1 | h1
      · exact Or.inl h1
      · simp only [List.mem_singleton] at h1
        exact Or.inr (Or.inr ⟨hc.1, h1⟩)
    · rw [if_neg hc] at h
      exact Or.inl h

/-! ## Claim theorems -/

/-- C1: for every platform, environment and would-be child-process
behaviour, findCommandInShellEnv applied to a command name that fails
the safety pattern (such as one containing shell metacharacters) returns
null and spawns no subprocess. -/
theorem findCommandInShellEnv_rejects_invalid (isWin : Bool) (command : String)
    (env : Env) (outcome : SpawnOutcome)
    (h : validCommandName command = false) :
    findCommandInShellEnv isWin command env outcome = (none, 0) := by
  unfold findCommandInShellEnv
  rw [h]
  simp

/-- Witness for C1 at the concrete injection attempt of the claim. -/
theorem findCommandInShellEnv_rejects_invalid_witness :
    validCommandName "ls; rm -rf /" = false
    ∧ findCommandInShellEnv false "ls; rm -rf /" [] (.closed (some 0) "/bin/ls\n") = (none, 0)
    ∧ findCommandInShellEnv true "ls; rm -rf /" [] (.closed (some 0) "C:\\tools\\ls.exe\r\n")
        = (none, 0) :=
  ⟨by decide,
   findCommandInShellEnv_rejects_invalid false "ls; rm -rf /" []
     (.closed (some 0) "/bin/ls\n") (by decide),
   findCommandInShellEnv_rejects_invalid true "ls; rm -rf /" []
     (.closed (some 0) "C:\\tools\\ls.exe\r\n") (by decide)⟩

theorem findSome?_forall {α β : Type} (f : α → Option β) (pred : β → Prop)
    (hf : ∀ x b, f x = some b → pred b) :
    ∀ (l : List α) (b : β), l.findSome? f = some b → pred b := by
  intro l
  induction l with
  | nil => intro b hb; simp at hb
  | cons x xs ih =>
    intro b hb
    rw [List.findSome?_cons] at hb
    cases hfx : f x with
    | none =>
      rw [hfx] at hb
      exact ih b hb
    | some c =>
      rw [hfx] at hb
      injection hb with hcb
      exact hf x b (by rw [hfx, hcb])

/-- C2 (amended): for every lookup other than the git common-root fast
path, a candidate returned by findExecutable has a directory (as the
code computes it: resolve, lower-case, dirname) that is neither the
current working directory nor below it; such candidates are skipped.
The git fast path returns a common-installation hit without this check. -/
theorem findExecutable_rejects_cwd (w : World) (name : String) (extensions : List String)
    (p : String) (hname : name ≠ "git")
    (h : findExecutable w name extensions = some p) :
    lowerStr (win32Dirname (lowerStr (win32Resolve w.cwd p))) ≠ lowerStr w.cwd
    ∧ strStartsWith (lowerStr (win32Dirname (lowerStr (win32Resolve w.cwd p))))
        (lowerStr w.cwd ++ "\\") = false := by
  unfold findExecutable at h
  by_cases hw : w.isWin
  · rw [if_neg (by simp [hw])] at h
    simp only [if_neg hname] at h
    split at h
    · simp at h
    · rename_i out hwo
      refine findSome?_forall _
        (fun b => lowerStr (win32Dirname (lowerStr (win32Resolve w.cwd b))) ≠ lowerStr w.cwd
          ∧ strStartsWith (lowerStr (win32Dirname (lowerStr (win32Resolve w.cwd b))))
              (lowerStr w.cwd ++ "\\") = false)
        ?_ _ p h
      intro x b hxb
      (try simp only [] at hxb)
      split at hxb
      · exact absurd hxb (by simp)
      · split at hxb
        · exact absurd hxb (by simp)
        · rename_i hcond2
          injection hxb with hclean
          subst hclean
          simp only [Bool.or_eq_true, decide_eq_true_eq, not_or] at hcond2
          exact ⟨hcond2.1, by simpa using hcond2.2⟩
  · simp [hw] at h

/-- Witness for C2 at a concrete lookup whose accepted candidate lies
outside the working directory. -/
theorem findExecutable_rejects_cwd_witness :
    findExecutable
        { isWin := true, cwd := "C:\\work", fsExists := fun _ => false,
          whereOutput := fun n => if n = "node" then some "C:\\tools\\node.exe\r\n" else none,
          envOverride := none, programFiles := none, programFilesX86 := none,
          localAppData := none }
        "node" [".exe", ".cmd"] = some "C:\\tools\\node.exe"
    ∧ (lowerStr (win32Dirname (lowerStr (win32Resolve "C:\\work" "C:\\tools\\node.exe")))
          ≠ lowerStr "C:\\work"
        ∧ strStartsWith
            (lowerStr (win32Dirname (lowerStr (win32Resolve "C:\\work" "C:\\tools\\node.exe"))))
            (lowerStr "C:\\work" ++ "\\") = false) :=
  ⟨by decide,
   findExecutable_rejects_cwd
     { isWin := true, cwd := "C:\\work", fsExists := fun _ => false,
       whereOutput := fun n => if n = "node" then some "C:\\tools\\node.exe\r\n" else none,
       envOverride := none, programFiles := none, programFilesX86 := none,
       localAppData := none }
     "node" [".exe", ".cmd"] "C:\\tools\\node.exe" (by decide) (by decide)⟩

/-- C2 counterexample: for the name git, the common-installation fast
path returns a candidate lying below the working directory, with no
hijack check applied on that branch. -/
theorem findExecutable_git_cwd_counterexample :
    findExecutable
        { isWin := true, cwd := "C:\\Program Files\\Git",
          fsExists := fun q => q = "C:\\Program Files\\Git\\cmd\\git.exe",
          whereOutput := fun _ => none, envOverride := none,
          programFiles := some "C:\\Program Files", programFilesX86 := none,
          localAppData := none }
        "git" [".exe", ".cmd"] = some "C:\\Program Files\\Git\\cmd\\git.exe"
    ∧ strStartsWith
        (lowerStr (win32Dirname (lowerStr (win32Resolve "C:\\Program Files\\Git"
            "C:\\Program Files\\Git\\cmd\\git.exe"))))
        (lowerStr "C:\\Program Files\\Git" ++ "\\") = true := by
  constructor <;> decide

/-- C3: probe failures never propagate.  For every failed probe (spawn
error, non-zero exit or timeout on POSIX; an unavailable registry on
Windows flows through getWindowsEnvironment), fetchShellEnv, a cache
miss of getShellEnv and refreshShellEnv all resolve, by type, to the
host process environment with the tool-bin directory appended; the
appended segment list carries a segment canonically equal to the
synthesized tool-bin directory. -/
theorem shellEnv_fallback_on_failure (isWin : Bool) (osHome : String) (err : String)
    (processEnv : Env) (s : ShellEnvCacheState) (regSystem regUser : Option String) :
    fetchShellEnv isWin osHome (.error err) processEnv
        = appendCherryBinToPath isWin osHome processEnv
    ∧ (getShellEnv isWin osHome { cachedEnv := none, probes := 0 } (.error err) processEnv).1
        = appendCherryBinToPath isWin osHome processEnv
    ∧ (refreshShellEnv isWin osHome s (.error err) processEnv).1
        = appendCherryBinToPath isWin osHome processEnv
    ∧ (jsTruthy regSystem = false → jsTruthy regUser = false →
        getWindowsEnvironment osHome regSystem regUser processEnv
          = appendCherryBinToPath true osHome processEnv)
    ∧ (cherryBinPath isWin osHome processEnv ≠ "" →
        ∃ seg ∈ appendedSegments isWin osHome processEnv,
          normaliseSegment isWin seg
            = normaliseSegment isWin (cherryBinPath isWin osHome processEnv)) := by
  refine ⟨rfl, rfl, rfl, ?_, ?_⟩
  · intro hs hu
    unfold getWindowsEnvironment readWindowsRegistryPath
    rw [if_pos (by simp [hs, hu])]
  · intro hcne
    have hmem := cherry_key_mem_appendedSegments isWin osHome processEnv hcne
    rcases List.mem_map.mp hmem with ⟨seg, hseg, hkey⟩
    exact ⟨seg, hseg, hkey⟩

/-- Witness for C3: a failed POSIX probe with a concrete process
environment resolves to that environment with the tool-bin directory
appended to PATH, and the tool-bin segment is present. -/
theorem shellEnv_fallback_on_failure_witness :
    (getShellEnv false "/h" { cachedEnv := none, probes := 0 } (.error "spawn failed")
        [("PATH", "/usr/bin"), ("HOME", "/u")]).1
      = [("PATH", "/usr/bin:/u/.cherrystudio/bin"), ("HOME", "/u")]
    ∧ getWindowsEnvironment "C:\\u" none none [("Path", "C:\\W"), ("UserProfile", "C:\\u")]
        = [("Path", "C:\\W;C:\\u\\.cherrystudio\\bin"), ("UserProfile", "C:\\u")]
    ∧ ∃ seg ∈ appendedSegments false "/h" [("PATH", "/usr/bin"), ("HOME", "/u")],
        normaliseSegment false seg
          = normaliseSegment false (cherryBinPath false "/h" [("PATH", "/usr/bin"), ("HOME", "/u")]) :=
  ⟨((shellEnv_fallback_on_failure false "/h" "spawn failed"
      [("PATH", "/usr/bin"), ("HOME", "/u")] { cachedEnv := none, probes := 0 }
      none none).2.1).trans (by decide),
   ((shellEnv_fallback_on_failure true "C:\\u" "unused"
      [("Path", "C:\\W"), ("UserProfile", "C:\\u")] { cachedEnv := none, probes := 0 }
      none none).2.2.2.1 (by decide) (by decide)).trans (by decide),
   (shellEnv_fallback_on_failure false "/h" "spawn failed"
      [("PATH", "/usr/bin"), ("HOME", "/u")] { cachedEnv := none, probes := 0 }
      none none).2.2.2.2 (by decide)⟩

/-- C4: the cache stores the resolved environment, not the in-flight
promise, so two getShellEnv calls that both pass the null check before
the first probe settles start two probes, not one coalesced probe; only
a call arriving after a probe has settled is served from the cache. -/
theorem getShellEnv_concurrent_two_probes :
    ((getShellEnvStart (getShellEnvStart { cachedEnv := none, probes := 0 }).1).1).probes = 2
    ∧ ¬ ((getShellEnvStart (getShellEnvStart { cachedEnv := none, probes := 0 }).1).1).probes = 1
    ∧ (getShellEnvStart (getShellEnvSettle
        (getShellEnvStart (getShellEnvStart { cachedEnv := none, probes := 0 }).1).1 [])).2
        = false := by
  refine ⟨by decide, by decide, by decide⟩

/-- C5 (amended): appendCherryBinToPath is idempotent on every PATH-like
key for every environment whose computed tool-bin directory is
non-empty, free of the PATH separator, and carries no surrounding
whitespace (true of every real home directory); duplicate detection
canonicalises segments by path-normalize plus Windows case folding, but
path-normalize preserves trailing separators, so a segment differing
only by a trailing slash is not a duplicate. -/
theorem appendCherryBinToPath_idempotent (isWin : Bool) (osHome : String) (env : Env)
    (hcne : cherryBinPath isWin osHome env ≠ "")
    (hctrim : jsTrimStr (cherryBinPath isWin osHome env) = cherryBinPath isWin osHome env)
    (hcsep : pathSepChar isWin ∉ (cherryBinPath isWin osHome env).data) :
    ∀ q, lowerStr q = "path" →
      envGet (appendCherryBinToPath isWin osHome (appendCherryBinToPath isWin osHome env)) q
        = envGet (appendCherryBinToPath isWin osHome env) q := by
  intro q hq
  rw [envGet_appendCherry_pathlike isWin osHome (appendCherryBinToPath isWin osHome env) q hq]
  rw [envGet_appendCherry_pathlike isWin osHome env q hq]
  rw [cherryUpdatedPath_appendCherry isWin osHome env hcne hctrim hcsep]
  rw [canonical_appendCherry]
  refine if_congr ?_ rfl rfl
  constructor
  · rintro (h | h | h)
    · exact envKeys_appendCherry_cases isWin osHome env q h
    · exact Or.inr (Or.inl h)
    · exact Or.inr (Or.inr h)
  · rintro (h | h | h)
    · exact Or.inl (mem_envKeys_appendCherry isWin osHome env q h)
    · exact Or.inr (Or.inl h)
    · exact Or.inr (Or.inr h)

/-- Witness for C5 at a concrete POSIX environment: a second application
leaves PATH unchanged, and the single application appends the tool-bin
directory once. -/
theorem appendCherryBinToPath_idempotent_witness :
    envGet (appendCherryBinToPath false "/h" (appendCherryBinToPath false "/h"
        [("HOME", "/u"), ("PATH", "/usr/bin")])) "PATH"
      = envGet (appendCherryBinToPath false "/h" [("HOME", "/u"), ("PATH", "/usr/bin")]) "PATH"
    ∧ envGet (appendCherryBinToPath false "/h" [("HOME", "/u"), ("PATH", "/usr/bin")]) "PATH"
      = some "/usr/bin:/u/.cherrystudio/bin" :=
  ⟨appendCherryBinToPath_idempotent false "/h" [("HOME", "/u"), ("PATH", "/usr/bin")]
     (by decide) (by decide) (by decide) "PATH" (by decide),
   by decide⟩

/-- C5 counterexample: a PATH whose only segment is the tool-bin
directory with a trailing slash.  path-normalize keeps the trailing
slash, so the claimed duplicate detection does not fire and the tool-bin
directory is appended next to its trailing-slash variant, contradicting
the claim that such a segment counts as a duplicate and is not appended
again. -/
theorem appendCherryBinToPath_trailing_slash_counterexample :
    envGet (appendCherryBinToPath false "/h"
        [("HOME", "/u"), ("PATH", "/u/.cherrystudio/bin/")]) "PATH"
      = some "/u/.cherrystudio/bin/:/u/.cherrystudio/bin"
    ∧ "/u/.cherrystudio/bin/" = "/u/.cherrystudio/bin" ++ "/" := by
  refine ⟨by decide, rfl⟩

theorem expandChars_token (env : Env) (pre nm suf : List Char)
    (hpre : '%' ∉ pre) (hname : '%' ∉ nm) (hne : nm ≠ []) :
    expandChars env (pre ++ '%' :: (nm ++ '%' :: suf))
      = pre ++ (tokRepl env nm ++ expandChars env suf) := by
  rw [expandChars_passthrough env pre _ hpre]
  congr 1
  unfold expandChars
  rw [show expandLoop env none ('%' :: (nm ++ '%' :: suf))
      = expandLoop env (some []) (nm ++ '%' :: suf) from by simp [expandLoop]]
  rw [expandLoop_collect env nm [] _ hname]
  have hacc : (nm.reverse ++ [] : List Char) ≠ [] := by simpa using hne
  rw [show expandLoop env (some (nm.reverse ++ [])) ('%' :: suf)
      = tokRepl env (nm.reverse ++ []).reverse ++ expandLoop env none suf from by
    simp [expandLoop, hacc]
    intro h
    exact absurd h hne]
  simp

/-- C6: expandWindowsEnvVars replaces a percent-delimited token whose
name case-insensitively matches some key of the environment with that
value of that key, and leaves a token with no matching key verbatim, the rest
of the string being processed recursively. -/
theorem expandWindowsEnvVars_token (env : Env) (pre name suf : String)
    (hpre : '%' ∉ pre.data) (hname : '%' ∉ name.data) (hne : name ≠ "") :
    expandWindowsEnvVars (pre ++ "%" ++ name ++ "%" ++ suf) env
      = pre ++ (match envFindCI env name with
                | some v => v
                | none => "%" ++ name ++ "%") ++ expandWindowsEnvVars suf env := by
  have hpct : ("%" : String).data = ['%'] := rfl
  have hnd : name.data ≠ [] := fun he => hne (by rw [← string_mk_data name, he])
  have hchar := expandChars_token env pre.data name.data suf.data hpre hname hnd
  unfold expandWindowsEnvVars
  have hdata : (pre ++ "%" ++ name ++ "%" ++ suf).data
      = pre.data ++ '%' :: (name.data ++ '%' :: suf.data) := by
    rw [string_data_append, string_data_append, string_data_append, string_data_append, hpct]
    simp
  rw [hdata, hchar]
  cases hf : envFindCI env name with
  | some v =>
    rw [show tokRepl env name.data = v.data from by
      unfold tokRepl
      rw [string_mk_data name, hf]]
    rw [← string_mk_data (pre ++ v ++ String.mk (expandChars env suf.data))]
    congr 1
    simp [string_data_append]
  | none =>
    rw [show tokRepl env name.data = '%' :: name.data ++ ['%'] from by
      unfold tokRepl
      rw [string_mk_data name, hf]]
    rw [← string_mk_data (pre ++ ("%" ++ name ++ "%") ++ String.mk (expandChars env suf.data))]
    congr 1
    simp [string_data_append, hpct]

/-- Witness for C6 at the two concrete expansions of the claim. -/
theorem expandWindowsEnvVars_token_witness :
    expandWindowsEnvVars "%SystemRoot%\\system32" [("SystemRoot", "C:\\Windows")]
      = "C:\\Windows\\system32"
    ∧ expandWindowsEnvVars "%UNKNOWN%\\bin" [("SystemRoot", "C:\\Windows")] = "%UNKNOWN%\\bin" :=
  ⟨(expandWindowsEnvVars_token [("SystemRoot", "C:\\Windows")] "" "SystemRoot" "\\system32"
      (by decide) (by decide) (by decide)).trans (by decide),
   (expandWindowsEnvVars_token [("SystemRoot", "C:\\Windows")] "" "UNKNOWN" "\\bin"
      (by decide) (by decide) (by decide)).trans (by decide)⟩

/-- C7 (amended): in autoDiscoverGitBash the environment override, when
truthy and valid, wins over the persisted configured path (whatever that
path is, even when it also validates); findGitBash, by contrast,
consults a passed-in custom configured path before the override, so
there the override prevails only when no valid custom path is supplied. -/
theorem autoDiscoverGitBash_env_override_wins (w : World) (cfg : GitBashConfig) (v : String)
    (hw : w.isWin = true)
    (htruthy : jsTruthy w.envOverride = true)
    (hov : validateGitBashPath w w.envOverride = some v) :
    (autoDiscoverGitBash w cfg).1 = some v ∧ (autoDiscoverGitBash w cfg).2 = cfg := by
  simp only [autoDiscoverGitBash]
  rw [if_neg (by simp [hw]), if_pos htruthy, hov]
  exact ⟨rfl, rfl⟩

/-- Witness for C7 (amended) in a world where the override and the
configured path both exist on disk and both validate. -/
theorem autoDiscoverGitBash_env_override_wins_witness :
    (autoDiscoverGitBash
        { isWin := true, cwd := "C:\\w",
          fsExists := fun q => q == "C:\\cfg\\bash.exe" || q == "C:\\env\\bash.exe",
          whereOutput := fun _ => none, envOverride := some "C:\\env\\bash.exe",
          programFiles := none, programFilesX86 := none, localAppData := none }
        { gitBashPath := some "C:\\cfg\\bash.exe", gitBashPathSource := some "manual" }).1
      = some "C:\\env\\bash.exe"
    ∧ validateGitBashPath
        { isWin := true, cwd := "C:\\w",
          fsExists := fun q => q == "C:\\cfg\\bash.exe" || q == "C:\\env\\bash.exe",
          whereOutput := fun _ => none, envOverride := some "C:\\env\\bash.exe",
          programFiles := none, programFilesX86 := none, localAppData := none }
        (some "C:\\cfg\\bash.exe") = some "C:\\cfg\\bash.exe" :=
  ⟨(autoDiscoverGitBash_env_override_wins
      { isWin := true, cwd := "C:\\w",
        fsExists := fun q => q == "C:\\cfg\\bash.exe" || q == "C:\\env\\bash.exe",
        whereOutput := fun _ => none, envOverride := some "C:\\env\\bash.exe",
        programFiles := none, programFilesX86 := none, localAppData := none }
      { gitBashPath := some "C:\\cfg\\bash.exe", gitBashPathSource := some "manual" }
      "C:\\env\\bash.exe" (by decide) (by decide) (by decide)).1,
   by decide⟩

/-- C7 counterexample: findGitBash given a validating configured custom
path returns it although the environment override is set and also
validates, so the override does not win unconditionally over the
persisted configuration. -/
theorem findGitBash_custom_beats_override_counterexample :
    findGitBash
        { isWin := true, cwd := "C:\\w",
          fsExists := fun q => q == "C:\\cfg\\bash.exe" || q == "C:\\env\\bash.exe",
          whereOutput := fun _ => none, envOverride := some "C:\\env\\bash.exe",
          programFiles := none, programFilesX86 := none, localAppData := none }
        (some "C:\\cfg\\bash.exe") = some "C:\\cfg\\bash.exe"
    ∧ validateGitBashPath
        { isWin := true, cwd := "C:\\w",
          fsExists := fun q => q == "C:\\cfg\\bash.exe" || q == "C:\\env\\bash.exe",
          whereOutput := fun _ => none, envOverride := some "C:\\env\\bash.exe",
          programFiles := none, programFilesX86 := none, localAppData := none }
        (some "C:\\env\\bash.exe") = some "C:\\env\\bash.exe"
    ∧ (some "C:\\cfg\\bash.exe" : Option String) ≠ some "C:\\env\\bash.exe" := by
  refine ⟨by decide, by decide, by decide⟩

/-- C8 (amended): validateGitBashPath accepts exactly the truthy
candidates whose resolved path exists and whose lower-cased resolved
path ends with the string bash.exe; it does not check that the final
path component is literally bash.exe, nor that the path is a regular
file.  Everything else is rejected as null. -/
theorem validateGitBashPath_iff (w : World) (p r : String) :
    validateGitBashPath w (some p) = some r
      ↔ (p ≠ "" ∧ r = win32Resolve w.cwd p ∧ w.fsExists (win32Resolve w.cwd p) = true
          ∧ strEndsWith (lowerStr (win32Resolve w.cwd p)) "bash.exe" = true) := by
  simp only [validateGitBashPath]
  by_cases hp : p = ""
  · simp [hp]
  · rw [if_neg hp]
    by_cases hfs : w.fsExists (win32Resolve w.cwd p) = true
    · rw [if_neg (by simp [hfs])]
      by_cases hends : strEndsWith (lowerStr (win32Resolve w.cwd p)) "bash.exe" = true
      · rw [if_pos hends]
        constructor
        · intro h
          injection h with h1
          exact ⟨hp, h1.symm, hfs, hends⟩
        · rintro ⟨_, h1, _, _⟩
          rw [h1]
      · rw [if_neg hends]
        constructor
        · intro h; simp at h
        · rintro ⟨_, _, _, h⟩
          exact absurd h hends
    · rw [if_pos (by simpa using hfs)]
      constructor
      · intro h; simp at h
      · rintro ⟨_, _, h, _⟩
        exact absurd h hfs

/-- Witness for C8 (amended): a genuine bash.exe path is accepted. -/
theorem validateGitBashPath_iff_witness :
    validateGitBashPath
        { isWin := true, cwd := "C:\\w", fsExists := fun q => q == "C:\\Git\\bin\\bash.exe",
          whereOutput := fun _ => none, envOverride := none,
          programFiles := none, programFilesX86 := none, localAppData := none }
        (some "C:\\Git\\bin\\bash.exe") = some "C:\\Git\\bin\\bash.exe" :=
  (validateGitBashPath_iff
      { isWin := true, cwd := "C:\\w", fsExists := fun q => q == "C:\\Git\\bin\\bash.exe",
        whereOutput := fun _ => none, envOverride := none,
        programFiles := none, programFilesX86 := none, localAppData := none }
      "C:\\Git\\bin\\bash.exe" "C:\\Git\\bin\\bash.exe").mpr (by decide)

/-- C8 counterexample: an existing file named mybash.exe is accepted by
the validation although its final path component is not literally
bash.exe (the check is a bare string-suffix test). -/
theorem validateGitBashPath_suffix_counterexample :
    validateGitBashPath
        { isWin := true, cwd := "C:\\w", fsExists := fun q => q == "C:\\t\\mybash.exe",
          whereOutput := fun _ => none, envOverride := none,
          programFiles := none, programFilesX86 := none, localAppData := none }
        (some "C:\\t\\mybash.exe") = some "C:\\t\\mybash.exe"
    ∧ strEndsWith (lowerStr "C:\\t\\mybash.exe") "\\bash.exe" = false
    ∧ lowerStr "C:\\t\\mybash.exe" ≠ "bash.exe" := by
  refine ⟨by decide, by decide, by decide⟩

/-- C9: getGitBashPathInfo returns the persisted path and source exactly
as stored, without re-validating (the world, including its filesystem,
is arbitrary, so this holds even when the stored path no longer exists
or is not named bash.exe); auto-discovery runs exactly when the
configured path is empty or absent. -/
theorem getGitBashPathInfo_no_revalidation (w : World) (cfg : GitBashConfig) (p : String)
    (hw : w.isWin = true) :
    (cfg.gitBashPath = some p → p ≠ "" →
      (getGitBashPathInfo w cfg).1 = (some p, cfg.gitBashPathSource)
        ∧ (getGitBashPathInfo w cfg).2 = cfg)
    ∧ (jsTruthy cfg.gitBashPath = false →
        (getGitBashPathInfo w cfg).1.1 = (autoDiscoverGitBash w cfg).1) := by
  constructor
  · intro hp hne
    simp only [getGitBashPathInfo]
    rw [if_neg (by simp [hw])]
    rw [if_neg (by simp [jsTruthy, hp, hne])]
    rw [hp]
    exact ⟨rfl, rfl⟩
  · intro hfalse
    simp only [getGitBashPathInfo]
    rw [if_neg (by simp [hw]), if_pos (by simp [hfalse])]

/-- Witness for C9: a configured path that no longer exists and is not
named bash.exe is returned verbatim with its stored manual source. -/
theorem getGitBashPathInfo_no_revalidation_witness :
    (getGitBashPathInfo
        { isWin := true, cwd := "C:\\w", fsExists := fun _ => false,
          whereOutput := fun _ => none, envOverride := none,
          programFiles := none, programFilesX86 := none, localAppData := none }
        { gitBashPath := some "C:\\gone\\oldbash.txt", gitBashPathSource := some "manual" }).1
      = (some "C:\\gone\\oldbash.txt", some "manual") :=
  ((getGitBashPathInfo_no_revalidation
      { isWin := true, cwd := "C:\\w", fsExists := fun _ => false,
        whereOutput := fun _ => none, envOverride := none,
        programFiles := none, programFilesX86 := none, localAppData := none }
      { gitBashPath := some "C:\\gone\\oldbash.txt", gitBashPathSource := some "manual" }
      "C:\\gone\\oldbash.txt" (by decide)).1 (by decide) (by decide)).1

/-- C10: appendCherryBinToPath deduplicates pre-existing PATH segments
as well: the written segment list is duplicate-free under segment
canonicalisation for every environment, and on a PATH containing the
same segment twice only the first occurrence survives, so the output is
not the input with one segment appended. -/
theorem appendCherryBinToPath_dedupes_existing :
    (∀ (isWin : Bool) (osHome : String) (env : Env),
      ((appendedSegments isWin osHome env).map (normaliseSegment isWin)).Nodup)
    ∧ appendedSegments false "/h" [("HOME", "/u"), ("PATH", "/usr/bin:/usr/bin")]
        = ["/usr/bin", "/u/.cherrystudio/bin"]
    ∧ appendedSegments false "/h" [("HOME", "/u"), ("PATH", "/usr/bin:/usr/bin")]
        ≠ ["/usr/bin", "/usr/bin", "/u/.cherrystudio/bin"]
    ∧ envGet (appendCherryBinToPath false "/h"
        [("HOME", "/u"), ("PATH", "/usr/bin:/usr/bin")]) "PATH"
        = some "/usr/bin:/u/.cherrystudio/bin" :=
  ⟨fun isWin _ _ => pushUniqueAux_keys_nodup isWin [] _, by decide, by decide, by decide⟩
